import Mathlib

/-!
Verification of the bustub storage-engine core against its specification

Shallow embedding of the components referenced by the claims:
watermark (src/concurrency/watermark.cpp, src/include/concurrency/watermark.h),
LRU-K replacer (src/buffer/lru_k_replacer.cpp),
buffer pool manager (src/buffer/buffer_pool_manager.cpp),
disk extendible hash table (src/container/disk/hash/disk_extendible_hash_table.cpp
and the page classes), transaction manager (src/concurrency/transaction_manager.cpp,
src/concurrency/transaction_manager_impl.cpp), and the MVCC sequential scan
(src/execution/seq_scan_executor.cpp, src/execution/execution_common.cpp).

Machine integers are modelled as `Nat`/`Int`; the narrowing casts that the code
performs (`uint8_t`) are written out as `% 256` where they occur.  Fallible code
returns `Option`/`Except`.  The two watermark implementations and the two LRU-K
implementations in the repository differ only in field naming and container
choice; §4.8/§4.2 of the spec fix the semantics, and the `.cpp` files cited by
the claims are the ones embedded here.
-/

namespace Bustub

/-! ## Watermark (src/concurrency/watermark.cpp, watermark.h)

`std::map<timestamp_t, int> active_read_timestamps_` is modelled as an
association list sorted strictly ascending by key.  `current_watermark_` is the
cached field the code only refreshes inside the erase branch of `RemoveTxn`. -/

structure Watermark where
  latestCommitTs : Nat
  currentWatermark : Nat
  activeReadTimestamps : List (Nat × Nat)
  deriving Repr, DecidableEq

/-- Constructor `Watermark::Watermark(latest_commit_timestamp)`: both the latest-commit
field and the cached watermark start at the given timestamp; no reads. -/
def mkWatermark (l : Nat) : Watermark := ⟨l, l, []⟩

/-- Ordered-map lookup (`find`) on the sorted association list. -/
def mapLookup : List (Nat × Nat) → Nat → Option Nat
  | [], _ => none
  | (k, c) :: rest, ts => if ts = k then some c else mapLookup rest ts

/-- Ordered-map insert-or-increment, keeping the list sorted by key:
`active_read_timestamps_[ts]++` resp. `= 1` in `Watermark::AddTxn`. -/
def mapIncr : List (Nat × Nat) → Nat → List (Nat × Nat)
  | [], ts => [(ts, 1)]
  | (k, c) :: rest, ts =>
    if ts < k then (ts, 1) :: (k, c) :: rest
    else if ts = k then (k, c + 1) :: rest
    else (k, c) :: mapIncr rest ts

/-- Ordered-map decrement-and-erase-on-zero for `Watermark::RemoveTxn`. -/
def mapDecr : List (Nat × Nat) → Nat → List (Nat × Nat)
  | [], _ => []
  | (k, c) :: rest, ts =>
    if ts = k then (if c - 1 = 0 then rest else (k, c - 1) :: rest)
    else (k, c) :: mapDecr rest ts

/-- Model of `Watermark::AddTxn`: throws (modelled as `none`) when
`read_ts < latest_commit_ts_`, otherwise increments the read count. -/
def wmAddTxn (s : Watermark) (ts : Nat) : Option Watermark :=
  if ts < s.latestCommitTs then none
  else some { s with activeReadTimestamps := mapIncr s.activeReadTimestamps ts }

/-- Model of `Watermark::RemoveTxn`: decrement the count; on reaching zero erase the
entry and refresh `current_watermark_` (to `latest_commit_ts_` if the map is
now empty, else to the new smallest key).  A missing timestamp is a no-op. -/
def wmRemoveTxn (s : Watermark) (ts : Nat) : Watermark :=
  match mapLookup s.activeReadTimestamps ts with
  | none => s
  | some c =>
    if c - 1 = 0 then
      let r := mapDecr s.activeReadTimestamps ts
      { s with activeReadTimestamps := r,
               currentWatermark :=
                 match r with
                 | [] => s.latestCommitTs
                 | (k, _) :: _ => k }
    else { s with activeReadTimestamps := mapDecr s.activeReadTimestamps ts }

/-- Model of `Watermark::UpdateCommitTs`: `BUSTUB_ENSURE(commit_ts > latest)` is
modelled as returning `none` on violation. -/
def wmUpdateCommitTs (s : Watermark) (cts : Nat) : Option Watermark :=
  if s.latestCommitTs < cts then some { s with latestCommitTs := cts } else none

/-- Model of `Watermark::GetWatermark`: the latest commit timestamp when no reads are
tracked, otherwise the cached `current_watermark_` field. -/
def wmGetWatermark (s : Watermark) : Nat :=
  if s.activeReadTimestamps = [] then s.latestCommitTs else s.currentWatermark

/-- One watermark operation, as in the claim: add, remove, update-commit-ts. -/
inductive WmOp where
  | add (ts : Nat)
  | remove (ts : Nat)
  | update (cts : Nat)
  deriving Repr, DecidableEq

/-- Run one watermark operation (`none` on an exception / failed ENSURE). -/
def wmStep (s : Watermark) : WmOp → Option Watermark
  | .add ts => wmAddTxn s ts
  | .remove ts => some (wmRemoveTxn s ts)
  | .update cts => wmUpdateCommitTs s cts

/-- Run a sequence of watermark operations. -/
def wmRun (s : Watermark) : List WmOp → Option Watermark
  | [] => some s
  | op :: rest => match wmStep s op with
    | none => none
    | some s' => wmRun s' rest

/-- The precondition the claim puts on a sequence: every `add ts` has
`ts ≥ latest_commit_ts` at call time (and the run does not fail). -/
def wmClaimPre : Watermark → List WmOp → Bool
  | _, [] => true
  | s, op :: rest =>
    (match op with
     | WmOp.add ts => decide (s.latestCommitTs ≤ ts)
     | _ => true) &&
    (match wmStep s op with
     | none => false
     | some s' => wmClaimPre s' rest)

/-- Watermark states reachable under the discipline the transaction manager
actually follows: `AddTxn` is called with `ts = latest_commit_ts` (as `Begin`
does) and `UpdateCommitTs` only while at least one read timestamp is tracked
(as `Commit` does, its own `read_ts` still being registered). -/
inductive WmReach : Watermark → Prop where
  | init (l : Nat) : WmReach (mkWatermark l)
  | add {s s' : Watermark} {ts : Nat} : WmReach s → ts = s.latestCommitTs →
      wmAddTxn s ts = some s' → WmReach s'
  | remove {s : Watermark} (ts : Nat) : WmReach s → WmReach (wmRemoveTxn s ts)
  | update {s s' : Watermark} {cts : Nat} : WmReach s →
      s.activeReadTimestamps ≠ [] → wmUpdateCommitTs s cts = some s' → WmReach s'

/-- Keys strictly ascending. -/
def wmSorted : List (Nat × Nat) → Prop
  | [] => True
  | (k, _) :: rest => (∀ p ∈ rest, k < p.1) ∧ wmSorted rest

/-- Inductive invariant of disciplined watermark states. -/
def WmInv (s : Watermark) : Prop :=
  wmSorted s.activeReadTimestamps ∧
  (∀ p ∈ s.activeReadTimestamps, 1 ≤ p.2 ∧ p.1 ≤ s.latestCommitTs) ∧
  (s.activeReadTimestamps = [] → s.currentWatermark = s.latestCommitTs) ∧
  (∀ k c rest, s.activeReadTimestamps = (k, c) :: rest → s.currentWatermark = k)

/-! ## LRU-K replacer (src/buffer/lru_k_replacer.cpp)

`history_` is kept newest-first: `InsertHistoryTimestamp` pops the back when the
deque holds `k` entries and pushes the current timestamp at the front.  Hence
`history_.front()` (the value `GetEarliestTimestamp` returns) is the most
recent access and `history_.back()` (the value `GetBackwardKDist` returns) is
the timestamp of the kth most-recent access.  `node_store_` is modelled as an
association list in iteration order; the class declaration matching this
`.cpp` is not in the repository, and the spec fixes only the algorithm, so the
container's iteration order is an implementation choice.  The monotonic clock
`GetCurrentTimestamp` is injected: `RecordAccess` takes the timestamp as an
argument. -/

structure LRUKNode where
  k : Nat
  fid : Nat
  history : List Nat
  isEvictable : Bool
  deriving Repr, DecidableEq

/-- Constructor `LRUKNode::LRUKNode(k, fid)`. -/
def mkLRUKNode (k fid : Nat) : LRUKNode := ⟨k, fid, [], false⟩

/-- Model of `LRUKNode::GetBackwardKDist`: returns `history_.back()`, the
timestamp of the kth most-recent access (callers guarantee `size == k`,
asserted in the code; `0` stands for the unreachable empty read). -/
def LRUKNode.getBackwardKDist (n : LRUKNode) : Nat := n.history.getLastD 0

/-- Model of `LRUKNode::GetEarliestTimestamp`: returns `history_.front()`.
Despite the name, with the newest-first layout this is the timestamp of the
most recent access. -/
def LRUKNode.getEarliestTimestamp (n : LRUKNode) : Nat := n.history.headD 0

/-- Model of `LRUKNode::HasInfBackwardKDist`: fewer than `k` recorded accesses. -/
def LRUKNode.hasInfBackwardKDist (n : LRUKNode) : Bool := n.history.length < n.k

/-- Model of `LRUKNode::InsertHistoryTimestamp`: drop the back when full, push
the new timestamp at the front. -/
def LRUKNode.insertHistoryTimestamp (n : LRUKNode) (ts : Nat) : LRUKNode :=
  { n with history :=
      ts :: (if n.history.length = n.k then n.history.dropLast else n.history) }

structure LRUKReplacer where
  nodeStore : List (Nat × LRUKNode)
  maxReplacerSize : Nat
  k : Nat
  deriving Repr, DecidableEq

/-- Constructor `LRUKReplacer::LRUKReplacer(num_frames, k)`. -/
def mkLRUKReplacer (numFrames k : Nat) : LRUKReplacer := ⟨[], numFrames, k⟩

/-- Semantics of `std::min_element` with a strict-less comparator on a key:
the first element attaining the minimal key. -/
def minElement (f : LRUKNode → Nat) : List LRUKNode → Option LRUKNode
  | [] => none
  | x :: xs => some (xs.foldl (fun acc y => if f y < f acc then y else acc) x)

/-- Model of `LRUKReplacer::Size`: the number of evictable frames. -/
def lruSize (r : LRUKReplacer) : Nat :=
  (r.nodeStore.filter (fun p => p.2.isEvictable)).length

/-- Evictable nodes in iteration order (the `evictable_nodes` vector). -/
def lruEvictableNodes (r : LRUKReplacer) : List LRUKNode :=
  (r.nodeStore.map Prod.snd).filter (fun n => n.isEvictable)

/-- Evictable nodes with `+∞` backward k-distance (the `evictable_inf_nodes`
vector built by `std::copy_if`). -/
def lruEvictableInfNodes (r : LRUKReplacer) : List LRUKNode :=
  (lruEvictableNodes r).filter (fun n => n.hasInfBackwardKDist)

/-- Erasure `node_store_.erase(frame_id)`. -/
def lruEraseFrame (r : LRUKReplacer) (fid : Nat) : LRUKReplacer :=
  { r with nodeStore := r.nodeStore.filter (fun p => p.1 != fid) }

/-- Model of `LRUKReplacer::Evict`: fail when no frame is evictable; otherwise
pick, among the evictable frames, the `min_element` by `GetBackwardKDist` when
none has `+∞` backward k-distance, else the `min_element` by
`GetEarliestTimestamp` among those with `+∞`; erase the victim. -/
def lruEvict (r : LRUKReplacer) : Option (Nat × LRUKReplacer) :=
  if lruSize r = 0 then none
  else
    match (if lruEvictableInfNodes r = [] then
             minElement LRUKNode.getBackwardKDist (lruEvictableNodes r)
           else
             minElement LRUKNode.getEarliestTimestamp (lruEvictableInfNodes r)) with
    | none => none
    | some n => some (n.fid, lruEraseFrame r n.fid)

/-- Model of `LRUKReplacer::RecordAccess` at an externally supplied clock
timestamp: create the node if the frame is new, then push the timestamp. -/
def lruRecordAccess (r : LRUKReplacer) (fid ts : Nat) : LRUKReplacer :=
  let store :=
    if r.nodeStore.any (fun p => p.1 == fid) then r.nodeStore
    else r.nodeStore ++ [(fid, mkLRUKNode r.k fid)]
  { r with nodeStore :=
      store.map (fun p => if p.1 = fid then (p.1, p.2.insertHistoryTimestamp ts) else p) }

/-- Model of `LRUKReplacer::SetEvictable` (the debug assertion that the frame
exists is a release-mode no-op; an absent frame leaves the store unchanged). -/
def lruSetEvictable (r : LRUKReplacer) (fid : Nat) (b : Bool) : LRUKReplacer :=
  { r with nodeStore :=
      r.nodeStore.map (fun p => if p.1 = fid then (p.1, { p.2 with isEvictable := b }) else p) }

/-- Model of `LRUKReplacer::Remove`: drop the frame if present. -/
def lruRemove (r : LRUKReplacer) (fid : Nat) : LRUKReplacer :=
  if r.nodeStore.any (fun p => p.1 == fid) then lruEraseFrame r fid else r

/-! ## Buffer pool manager (src/buffer/buffer_pool_manager.cpp)

Frames carry the page metadata relevant to the claims (`page_id_`,
`pin_count_`, `is_dirty_`); page bytes and the disk scheduler are not needed
for C8/C10 and disk requests are modelled as always succeeding.  The
`unordered_map` page table is an association list, the monotonic clock feeding
`RecordAccess` is a `now` counter in the state.  `DeallocatePage`'s body is not
in the repository; modelled from the spec (§4.3: `delete_page` "deallocates
id") as recording the page id in a `deallocatedIds` list. -/

structure Frame where
  pageId : Int
  pinCount : Nat
  isDirty : Bool
  deriving Repr, DecidableEq

/-- Default-constructed page in the `new Page[pool_size_]` array. -/
def defaultFrame : Frame := ⟨-1, 0, false⟩

structure BufferPoolManager where
  frames : List Frame
  pageTable : List (Int × Nat)
  freeList : List Nat
  replacer : LRUKReplacer
  nextPageId : Int
  deallocatedIds : List Int
  now : Nat
  deriving Repr, DecidableEq

/-- Lookup in the page table. -/
def ptLookup : List (Int × Nat) → Int → Option Nat
  | [], _ => none
  | (pid, fid) :: rest, p => if p = pid then some fid else ptLookup rest p

/-- Erasure from the page table. -/
def ptErase (t : List (Int × Nat)) (p : Int) : List (Int × Nat) :=
  t.filter (fun q => q.1 != p)

/-- Constructor `BufferPoolManager::BufferPoolManager`: every frame starts on
the free list. -/
def mkBufferPoolManager (poolSize replacerK : Nat) : BufferPoolManager :=
  ⟨List.replicate poolSize defaultFrame, [], List.range poolSize,
   mkLRUKReplacer poolSize replacerK, 0, [], 0⟩

/-- Model of `BufferPoolManager::GetFreeFrameId`: fail when the free list is
empty and no frame is evictable; otherwise evict when the free list is empty
(writing a dirty victim back, a no-op here, and erasing its page-table entry),
else pop the free list. -/
def getFreeFrameId (s : BufferPoolManager) : Option (Nat × BufferPoolManager) :=
  if s.freeList = [] ∧ lruSize s.replacer = 0 then none
  else if s.freeList = [] then
    match lruEvict s.replacer with
    | none => none
    | some (fid, rep) =>
      some (fid, { s with replacer := rep,
                          pageTable := ptErase s.pageTable
                            ((s.frames.getD fid defaultFrame).pageId) })
  else
    match s.freeList with
    | [] => none
    | f :: rest => some (f, { s with freeList := rest })

/-- Model of `BufferPoolManager::ResetPageMetaDataToDefault`. -/
def resetPageMetaData (pid : Int) : Frame := ⟨pid, 1, false⟩

/-- Model of `BufferPoolManager::NewPage`: returns the allocated page id (the
out-parameter) or `none`; the victim flush is a synchronous disk write that is
modelled as succeeding. -/
def newPage (s : BufferPoolManager) : Option Int × BufferPoolManager :=
  match getFreeFrameId s with
  | none => (none, s)
  | some (fid, s1) =>
    let pid := s1.nextPageId
    (some pid,
     { s1 with nextPageId := s1.nextPageId + 1,
               frames := s1.frames.set fid (resetPageMetaData pid),
               pageTable := s1.pageTable ++ [(pid, fid)],
               replacer := lruSetEvictable (lruRecordAccess s1.replacer fid s1.now)
                 fid false,
               now := s1.now + 1 })

/-- Model of `BufferPoolManager::FetchPage`: pin and return a resident page;
otherwise take a free frame, schedule the read (modelled as succeeding) and
install the page.  Returns the frame id holding the page. -/
def fetchPage (s : BufferPoolManager) (pid : Int) :
    Option Nat × BufferPoolManager :=
  match ptLookup s.pageTable pid with
  | some fid =>
    let f := s.frames.getD fid defaultFrame
    (some fid,
     { s with frames := s.frames.set fid { f with pinCount := f.pinCount + 1 },
              replacer := lruSetEvictable (lruRecordAccess s.replacer fid s.now)
                fid false,
              now := s.now + 1 })
  | none =>
    match getFreeFrameId s with
    | none => (none, s)
    | some (fid, s1) =>
      (some fid,
       { s1 with frames := s1.frames.set fid (resetPageMetaData pid),
                 pageTable := s1.pageTable ++ [(pid, fid)],
                 replacer := lruSetEvictable
                   (lruRecordAccess (lruRemove s1.replacer fid) fid s1.now) fid false,
                 now := s1.now + 1 })

/-- Model of `BufferPoolManager::DeletePage`: `true` and no change when the
page is not resident; `false` and no change when it is pinned; otherwise clear
the frame, erase the page-table entry, remove the frame from the replacer,
push it on the free list and deallocate the id. -/
def deletePage (s : BufferPoolManager) (pid : Int) : Bool × BufferPoolManager :=
  match ptLookup s.pageTable pid with
  | none => (true, s)
  | some fid =>
    let f := s.frames.getD fid defaultFrame
    if 0 < f.pinCount then (false, s)
    else
      (true,
       { s with frames := s.frames.set fid { f with pageId := -1, isDirty := false },
                pageTable := ptErase s.pageTable pid,
                replacer := lruRemove s.replacer fid,
                freeList := s.freeList ++ [fid],
                deallocatedIds := s.deallocatedIds ++ [pid] })

/-! ## Transaction manager (src/concurrency/transaction_manager.cpp,
src/include/concurrency/transaction.h)

Timestamps live in one numeric space (`Nat` here): values below
`TXN_START_ID` are commit timestamps, values at or above it are temporary
per-transaction timestamps (`GetTransactionTempTs` returns `txn_id_`).  The
table heaps reached through the catalog are modelled as one association list
keyed by `(table_oid, rid)`. -/

inductive TxnState where
  | running
  | tainted
  | committed
  | aborted
  deriving Repr, DecidableEq

inductive IsoLevel where
  | readUncommitted
  | snapshotIsolation
  | serializable
  deriving Repr, DecidableEq

abbrev RID := Nat × Nat

structure TupleMeta where
  ts : Nat
  isDeleted : Bool
  deriving Repr, DecidableEq

structure Txn where
  txnId : Nat
  isolation : IsoLevel
  state : TxnState
  readTs : Nat
  commitTs : Option Nat
  writeSet : List (Nat × RID)
  deriving Repr, DecidableEq

structure TxnMgr where
  lastCommitTs : Nat
  heap : List ((Nat × RID) × TupleMeta)
  runningTxns : Watermark
  deriving Repr, DecidableEq

/-- Model of `TableHeap::GetTupleMeta` over the combined catalog view. -/
def heapLookup : List ((Nat × RID) × TupleMeta) → Nat × RID → Option TupleMeta
  | [], _ => none
  | (k, m) :: rest, key => if key = k then some m else heapLookup rest key

/-- Model of `TableHeap::UpdateTupleMeta` over the combined catalog view. -/
def heapUpdate : List ((Nat × RID) × TupleMeta) → Nat × RID → TupleMeta →
    List ((Nat × RID) × TupleMeta)
  | [], _, _ => []
  | (k, m) :: rest, key, v =>
    if key = k then (k, v) :: rest else (k, m) :: heapUpdate rest key v

/-- Model of `TransactionManager::VerifyTxn`: the stub always returns true. -/
def verifyTxn (_ : Txn) : Bool := true

/-- Model of `TransactionManager::Abort` (state change and watermark removal;
the undo pass is intentionally absent in the source). -/
def txnAbort (mgr : TxnMgr) (txn : Txn) : Except String (TxnMgr × Txn) :=
  if txn.state ≠ TxnState.running ∧ txn.state ≠ TxnState.tainted then
    Except.error "txn not in running / tainted state"
  else
    Except.ok ({ mgr with runningTxns := wmRemoveTxn mgr.runningTxns txn.readTs },
               { txn with state := TxnState.aborted })

/-- Commit's write-set stamping loop: rewrite every written tuple's metadata
timestamp to the commit timestamp (an absent rid is the modelled image of the
out-of-range access the code would make). -/
def stampWriteSet (cts : Nat) :
    List (Nat × RID) → List ((Nat × RID) × TupleMeta) →
    Except String (List ((Nat × RID) × TupleMeta))
  | [], h => Except.ok h
  | e :: rest, h =>
    match heapLookup h e with
    | none => Except.error "write-set rid not in table heap"
    | some m => stampWriteSet cts rest (heapUpdate h e { m with ts := cts })

/-- Model of `TransactionManager::Commit`: reject a non-running transaction;
run `VerifyTxn` for SERIALIZABLE (aborting on failure — dead code, the stub
returns true); take `commit_ts = ++last_commit_ts`; stamp every write-set
tuple's metadata with it; mark the transaction committed; update the
watermark's latest commit timestamp (`BUSTUB_ENSURE` modelled as an error)
and remove the transaction's read timestamp. -/
def txnCommit (mgr : TxnMgr) (txn : Txn) : Except String (Bool × TxnMgr × Txn) :=
  if txn.state ≠ TxnState.running then Except.error "txn not in running state"
  else if txn.isolation = IsoLevel.serializable ∧ verifyTxn txn = false then
    match txnAbort mgr txn with
    | Except.error e => Except.error e
    | Except.ok (mgr1, txn1) => Except.ok (false, mgr1, txn1)
  else
    match stampWriteSet (mgr.lastCommitTs + 1) txn.writeSet mgr.heap with
    | Except.error e => Except.error e
    | Except.ok h2 =>
      match wmUpdateCommitTs mgr.runningTxns (mgr.lastCommitTs + 1) with
      | none => Except.error "commit timestamp must exceed latest commit timestamp"
      | some w1 =>
        Except.ok (true,
          { lastCommitTs := mgr.lastCommitTs + 1, heap := h2,
            runningTxns := wmRemoveTxn w1 txn.readTs },
          { txn with commitTs := some (mgr.lastCommitTs + 1),
                     state := TxnState.committed })

/-! ## Write-write conflict check (src/execution/execution_common.cpp,
`CheckWriteWriteConflict`, and `Transaction::SetTainted` from
src/concurrency/transaction_manager_impl.cpp) -/

/-- Single-table view for the conflict check. -/
def tblLookup : List (RID × TupleMeta) → RID → Option TupleMeta
  | [], _ => none
  | (k, m) :: rest, key => if key = k then some m else tblLookup rest key

inductive WWCOutcome where
  | ok
  | conflict
  | terminated
  | missingRid
  deriving Repr, DecidableEq

/-- The write-write conflict condition of the check at one rid:
`meta.ts > txn.read_ts && meta.ts != txn.GetTransactionId()`. -/
def conflictAt (txn : Txn) (tbl : List (RID × TupleMeta)) (rid : RID) : Bool :=
  match tblLookup tbl rid with
  | none => false
  | some m => decide (txn.readTs < m.ts) && decide (m.ts ≠ txn.txnId)

/-- Model of `CheckWriteWriteConflict`: for each rid in order, read the tuple
metadata; when `meta.ts > txn.read_ts` and `meta.ts != txn.GetTransactionId()`
call `SetTainted` (which moves RUNNING to TAINTED, or `std::terminate`s,
modelled as `terminated`) and throw `WriteConflict` (`conflict`). -/
def checkWWConflict (txn : Txn) (tbl : List (RID × TupleMeta)) :
    List RID → Txn × WWCOutcome
  | [] => (txn, WWCOutcome.ok)
  | rid :: rest =>
    match tblLookup tbl rid with
    | none => (txn, WWCOutcome.missingRid)
    | some m =>
      if txn.readTs < m.ts ∧ m.ts ≠ txn.txnId then
        if txn.state = TxnState.running then
          ({ txn with state := TxnState.tainted }, WWCOutcome.conflict)
        else (txn, WWCOutcome.terminated)
      else checkWWConflict txn tbl rest

/-! ## MVCC sequential scan (src/execution/seq_scan_executor.cpp,
`ReconstructTuple` from src/execution/execution_common.cpp)

Tuples are lists of column values; an undo log carries the modified-field
bit-vector and the partial tuple of old values for exactly the modified
columns.  Version links and per-transaction undo-log vectors live in the
transaction-manager view; chain walks take fuel. -/

structure UndoLink where
  prevTxn : Int
  prevLogIdx : Nat
  deriving Repr, DecidableEq

/-- Model of `UndoLink::IsValid`. -/
def UndoLink.isValid (l : UndoLink) : Bool := l.prevTxn ≠ -1

/-- The invalid link `UndoLink{}` (`INVALID_TXN_ID = -1`). -/
def invalidUndoLink : UndoLink := ⟨-1, 0⟩

structure UndoLog where
  isDeleted : Bool
  modifiedFields : List Bool
  tuple : List Int
  ts : Nat
  prevVersion : UndoLink
  deriving Repr, DecidableEq

structure ScanMgr where
  versionLinks : List (RID × UndoLink)
  txnMap : List (Int × List UndoLog)
  watermark : Nat
  deriving Repr, DecidableEq

/-- Model of `TransactionManager::GetUndoLink`. -/
def getUndoLink (mgr : ScanMgr) : RID → Option UndoLink :=
  fun rid => go mgr.versionLinks rid
where
  go : List (RID × UndoLink) → RID → Option UndoLink
    | [], _ => none
    | (k, l) :: rest, key => if key = k then some l else go rest key

/-- Model of `TransactionManager::GetUndoLogOptional`. -/
def getUndoLog (mgr : ScanMgr) (link : UndoLink) : Option UndoLog :=
  go mgr.txnMap
where
  go : List (Int × List UndoLog) → Option UndoLog
    | [] => none
    | (tid, logs) :: rest =>
      if link.prevTxn = tid then logs.get? link.prevLogIdx else go rest

/-- Overlay of one undo log's modified fields onto a tuple, as in the inner
loop of `ReconstructTuple`: column `i` takes the next partial value when
`modified_fields[i]` is set. -/
def overlayFields : List Int → List Bool → List Int → List Int
  | t, [], _ => t
  | [], _, _ => []
  | _ :: xs, true :: bs, vals => vals.headD 0 :: overlayFields xs bs vals.tail
  | x :: xs, false :: bs, vals => x :: overlayFields xs bs vals

/-- Model of `ReconstructTuple`: fold the undo logs newest-to-oldest over the
base tuple; a deletion log only sets the deleted flag, any other log clears it
and overlays its fields; return `none` when the final flag is deleted. -/
def reconstructTuple (base : List Int) (meta : TupleMeta) (logs : List UndoLog) :
    Option (List Int) :=
  let r := logs.foldl
    (fun (acc : Bool × List Int) log =>
      if log.isDeleted then (true, acc.2)
      else (false, overlayFields acc.2 log.modifiedFields log.tuple))
    (meta.isDeleted, base)
  if r.1 then none else some r.2

/-- Model of `SeqScanExecutor::RetrieveUndoLogs`: walk the chain from the
rid's undo link, collecting logs until one with `ts ≤ read_ts` or
`ts < watermark` is included; `none` when the chain ends first (or on a
dangling link, where the code would throw). -/
def retrieveUndoLogs (mgr : ScanMgr) (rid : RID) (readTs : Nat) (fuel : Nat) :
    Option (List UndoLog) :=
  match getUndoLink mgr rid with
  | none => none
  | some link0 => go fuel link0 []
where
  go : Nat → UndoLink → List UndoLog → Option (List UndoLog)
    | 0, _, _ => none
    | f + 1, link, logs =>
      if link.isValid then
        match getUndoLog mgr link with
        | none => none
        | some log =>
          if log.ts ≤ readTs ∨ log.ts < mgr.watermark then some (logs ++ [log])
          else go f log.prevVersion (logs ++ [log])
      else none

/-- Model of `SeqScanExecutor::IsTupleVisibleToTransaction`. -/
def isTupleVisible (meta : TupleMeta) (txn : Txn) : Bool :=
  meta.ts ≤ txn.readTs || txn.txnId == meta.ts

/-- Model of `SeqScanExecutor::ReconstructTupleFromTableHeapAndUndoLogs`. -/
def reconstructFromHeapAndLogs (mgr : ScanMgr) (txn : Txn) (baseTuple : List Int)
    (baseMeta : TupleMeta) (rid : RID) (fuel : Nat) : Option (List Int) :=
  if isTupleVisible baseMeta txn then
    if baseMeta.isDeleted then none else some baseTuple
  else
    match retrieveUndoLogs mgr rid txn.readTs fuel with
    | none => none
    | some logs =>
      if logs = [] ∧ (baseMeta.isDeleted || decide (txn.readTs < baseMeta.ts)) then
        none
      else reconstructTuple baseTuple baseMeta logs

/-- Model of `SeqScanExecutor::Next` drained into a first-result form: advance
over the base rows; apply the plan's filter predicate (when present) to the
BASE tuple, skipping rows that fail it; then reconstruct the snapshot version
and emit it when it exists. -/
def seqScanNext (mgr : ScanMgr) (txn : Txn) (pred : Option (List Int → Bool))
    (fuel : Nat) : List (RID × TupleMeta × List Int) → Option (List Int × RID)
  | [] => none
  | (rid, meta, tuple) :: rest =>
    if (match pred with
        | some p => !p tuple
        | none => false) then
      seqScanNext mgr txn pred fuel rest
    else
      match reconstructFromHeapAndLogs mgr txn tuple meta rid fuel with
      | none => seqScanNext mgr txn pred fuel rest
      | some t => some (t, rid)

/-! ## Disk extendible hash table
(src/container/disk/hash/disk_extendible_hash_table.cpp,
src/storage/page/extendible_htable_header_page.cpp,
src/storage/page/extendible_htable_directory_page.cpp,
src/storage/page/extendible_htable_bucket_page.cpp)

Keys and values are `Nat`; the injected `HashFunction` is a parameter.  Page
id allocation is the buffer pool's monotone counter.  Two behaviours of the
environment deserve note.  First, every `bpm_->DeletePage(...)` call in
`Remove` happens while the corresponding page guard is still alive and
pinning the page, so `DeletePage` sees `pin_count > 0`, returns `false` and
deletes nothing; the calls are no-ops and pages stay resident, which is how
they are modelled.  Second, `GetLocalDepthMask` computes `(1 << ld) - 1` on a
32-bit integer; for `ld ≥ 32` (reachable only after the local-depth underflow
in the merge path has stored 255) this shift is undefined behaviour in C++,
and the model returns an error there, ending the trace: no claim is made
about executions past undefined behaviour.  The page-size-derived capacity
constants (`HTABLE_HEADER_MAX_DEPTH`, `HTABLE_DIRECTORY_MAX_DEPTH`,
`HTableBucketArraySize`) live in headers that are not part of the repository;
they are modelled from the spec's page layouts (§6) as 9, 9 and 511. -/

def htableHeaderMaxDepth : Nat := 9

def htableDirectoryMaxDepth : Nat := 9

def htableBucketArraySize : Nat := 511

structure Bucket where
  maxSize : Nat
  entries : List (Nat × Nat)
  deriving Repr, DecidableEq

/-- Model of `ExtendibleHTableBucketPage::Init`. -/
def bucketInit (maxSize : Nat) : Bucket := ⟨min maxSize htableBucketArraySize, []⟩

/-- Model of `ExtendibleHTableBucketPage::Lookup` (first match of a linear scan). -/
def bucketLookup (b : Bucket) (key : Nat) : Option Nat :=
  (b.entries.find? (fun e => e.1 == key)).map Prod.snd

/-- Model of `ExtendibleHTableBucketPage::IsFull`. -/
def bucketIsFull (b : Bucket) : Bool := b.entries.length == b.maxSize

/-- Model of `ExtendibleHTableBucketPage::IsEmpty`. -/
def bucketIsEmpty (b : Bucket) : Bool := b.entries.length == 0

/-- Model of `ExtendibleHTableBucketPage::Insert`: reject a duplicate key or a
full bucket, else append. -/
def bucketInsert (b : Bucket) (key v : Nat) : Bool × Bucket :=
  if b.entries.any (fun e => e.1 == key) then (false, b)
  else if b.entries.length = b.maxSize then (false, b)
  else (true, { b with entries := b.entries ++ [(key, v)] })

/-- First-occurrence removal, as the copy-shift in
`ExtendibleHTableBucketPage::Remove` does. -/
def removeFirstKey : List (Nat × Nat) → Nat → List (Nat × Nat)
  | [], _ => []
  | e :: rest, key => if e.1 = key then rest else e :: removeFirstKey rest key

/-- Model of `ExtendibleHTableBucketPage::Remove`. -/
def bucketRemove (b : Bucket) (key : Nat) : Bool × Bucket :=
  if b.entries.any (fun e => e.1 == key) then
    (true, { b with entries := removeFirstKey b.entries key })
  else (false, b)

/-- Model of `ExtendibleHTableBucketPage::RemoveAt`. -/
def bucketRemoveAt (b : Bucket) (i : Nat) : Bucket :=
  { b with entries := b.entries.eraseIdx i }

structure DirPage where
  maxDepth : Nat
  globalDepth : Nat
  localDepths : Nat → Nat
  bucketPageIds : Nat → Int

/-- Model of `ExtendibleHTableDirectoryPage::Init`: cap the depth, invalidate
every bucket page id, zero every local depth. -/
def dirInit (maxDepth : Nat) : DirPage :=
  ⟨min maxDepth htableDirectoryMaxDepth, 0, fun _ => 0, fun _ => -1⟩

/-- Model of `ExtendibleHTableDirectoryPage::Size` (`1 << global_depth_`). -/
def dirSize (d : DirPage) : Nat := 2 ^ d.globalDepth

/-- Model of `ExtendibleHTableDirectoryPage::MaxSize`. -/
def dirMaxSize (d : DirPage) : Nat := 2 ^ d.maxDepth

/-- Model of `ExtendibleHTableDirectoryPage::HashToBucketIndex`. -/
def hashToBucketIndex (d : DirPage) (hash : Nat) : Nat := hash % dirSize d

/-- Model of `ExtendibleHTableDirectoryPage::SetBucketPageId`. -/
def setBucketPageId (d : DirPage) (i : Nat) (pid : Int) : DirPage :=
  { d with bucketPageIds := fun j => if j = i then pid else d.bucketPageIds j }

/-- Model of `ExtendibleHTableDirectoryPage::SetLocalDepth` (a `uint8_t`
array slot, hence the `% 256`). -/
def setLocalDepth (d : DirPage) (i : Nat) (v : Nat) : DirPage :=
  { d with localDepths := fun j => if j = i then v % 256 else d.localDepths j }

/-- Model of `ExtendibleHTableDirectoryPage::GetSplitImageIndex`: the own
index for a one-entry directory, else the index with the top
(`global_depth - 1`) bit flipped, written as the source's add/subtract. -/
def getSplitImageIndex (d : DirPage) (i : Nat) : Nat :=
  if dirSize d = 1 then i
  else if i < 2 ^ (d.globalDepth - 1) then i + 2 ^ (d.globalDepth - 1)
  else i - 2 ^ (d.globalDepth - 1)

/-- Model of `ExtendibleHTableDirectoryPage::GetLocalDepthMask`
(`(1 << local_depth) - 1` on a 32-bit integer): for a local depth of 32 or
more the C++ shift is undefined behaviour, modelled as an error. -/
def getLocalDepthMaskE (d : DirPage) (i : Nat) : Except String Nat :=
  if d.localDepths i < 32 then Except.ok (2 ^ d.localDepths i - 1)
  else Except.error "undefined 32-bit shift in GetLocalDepthMask"

/-- Model of `ExtendibleHTableDirectoryPage::IncrGlobalDepth`: no-op at the
depth cap, else replicate both arrays into the new upper half. -/
def incrGlobalDepth (d : DirPage) : DirPage :=
  if d.maxDepth ≤ d.globalDepth then d
  else
    { maxDepth := d.maxDepth, globalDepth := d.globalDepth + 1,
      localDepths := fun i =>
        if 2 ^ d.globalDepth ≤ i ∧ i < 2 ^ (d.globalDepth + 1) then
          d.localDepths (i - 2 ^ d.globalDepth)
        else d.localDepths i,
      bucketPageIds := fun i =>
        if 2 ^ d.globalDepth ≤ i ∧ i < 2 ^ (d.globalDepth + 1) then
          d.bucketPageIds (i - 2 ^ d.globalDepth)
        else d.bucketPageIds i }

/-- Model of `ExtendibleHTableDirectoryPage::DecrGlobalDepth`: no-op at depth
zero, else invalidate the upper half and halve the size. -/
def decrGlobalDepth (d : DirPage) : DirPage :=
  if d.globalDepth = 0 then d
  else
    { maxDepth := d.maxDepth, globalDepth := d.globalDepth - 1,
      localDepths := fun i =>
        if 2 ^ (d.globalDepth - 1) ≤ i ∧ i < 2 ^ d.globalDepth then 0
        else d.localDepths i,
      bucketPageIds := fun i =>
        if 2 ^ (d.globalDepth - 1) ≤ i ∧ i < 2 ^ d.globalDepth then -1
        else d.bucketPageIds i }

/-- Model of `ExtendibleHTableDirectoryPage::CanShrink`: every local depth
strictly below the global depth. -/
def canShrink (d : DirPage) : Bool :=
  (List.range (dirSize d)).all (fun i => decide (d.localDepths i < d.globalDepth))

structure HeaderPage where
  maxDepth : Nat
  directoryPageIds : Nat → Int

/-- Model of `ExtendibleHTableHeaderPage::Init`. -/
def headerInit (maxDepth : Nat) : HeaderPage :=
  ⟨min maxDepth htableHeaderMaxDepth, fun _ => -1⟩

/-- Model of `ExtendibleHTableHeaderPage::MaxSize`. -/
def headerMaxSize (h : HeaderPage) : Nat := 2 ^ h.maxDepth

/-- Model of `ExtendibleHTableHeaderPage::HashToDirectoryIndex`: index 0 for a
single-directory header, else the top `max_depth` bits of the 32-bit hash. -/
def hashToDirectoryIndex (h : HeaderPage) (hash : Nat) : Nat :=
  if headerMaxSize h = 1 then 0
  else (hash >>> (32 - h.maxDepth)) &&& (2 ^ h.maxDepth - 1)

/-- Model of `ExtendibleHTableHeaderPage::SetDirectoryPageId`. -/
def setDirectoryPageId (h : HeaderPage) (i : Nat) (pid : Int) : HeaderPage :=
  { h with directoryPageIds := fun j => if j = i then pid else h.directoryPageIds j }

/-- The hash table's configuration: the directory/bucket creation parameters
and the injected hash function (its `uint32_t` range is a superset of what is
assumed here). -/
structure HTConfig where
  directoryMaxDepth : Nat
  bucketMaxSize : Nat
  hash : Nat → Nat

/-- State of the table: the header page plus the buffer pool's view of the
directory and bucket pages and the monotone page id counter. -/
structure HTState where
  header : HeaderPage
  dirs : Int → Option DirPage
  buckets : Int → Option Bucket
  nextPageId : Int

/-- Constructor `DiskExtendibleHashTable::DiskExtendibleHashTable`: a fresh
header page (page 0), no directories or buckets yet. -/
def mkHashTable (headerMaxDepth : Nat) : HTState :=
  ⟨headerInit headerMaxDepth, fun _ => none, fun _ => none, 1⟩

/-- Page allocation (`BufferPoolManager::NewPageGuarded` with the monotone
`AllocatePage` counter). -/
def allocPage (s : HTState) : Int × HTState :=
  (s.nextPageId, { s with nextPageId := s.nextPageId + 1 })

/-- Fetch of a directory page; a never-written page reads as zeroes. -/
def fetchDir (s : HTState) (pid : Int) : DirPage :=
  (s.dirs pid).getD ⟨0, 0, fun _ => 0, fun _ => 0⟩

/-- Fetch of a bucket page; a never-written page reads as zeroes. -/
def fetchBucket (s : HTState) (pid : Int) : Bucket :=
  (s.buckets pid).getD ⟨0, []⟩

/-- Write back a directory page. -/
def updDir (s : HTState) (pid : Int) (d : DirPage) : HTState :=
  { s with dirs := fun q => if q = pid then some d else s.dirs q }

/-- Write back a bucket page. -/
def updBucket (s : HTState) (pid : Int) (b : Bucket) : HTState :=
  { s with buckets := fun q => if q = pid then some b else s.buckets q }

/-- Model of `UpdateDirectoryPageIdMapping`: rewrite `bucket_page_id[idx]` for
every in-range `idx` agreeing with `bucket_idx` on the mask bits. -/
def updatePageIdMapping (d : DirPage) (bIdx : Nat) (pid : Int) (mask : Nat) :
    DirPage :=
  { d with bucketPageIds := fun i =>
      if i < dirSize d ∧ (i &&& mask) = (bIdx &&& mask) then pid
      else d.bucketPageIds i }

/-- Model of `UpdateDirectoryLocalDepthMapping`. -/
def updateLocalDepthMapping (d : DirPage) (bIdx : Nat) (newLd : Nat)
    (mask : Nat) : DirPage :=
  { d with localDepths := fun i =>
      if i < dirSize d ∧ (i &&& mask) = (bIdx &&& mask) then newLd % 256
      else d.localDepths i }

/-- Model of `MigrateEntries`: iterate the split bucket downward; an entry
whose hash agrees with the new bucket index on the mask bits is inserted into
the new bucket (return value ignored, as in the source) and removed in place. -/
def migrateGo (hash : Nat → Nat) (mask lowerBits : Nat) :
    Nat → Bucket → Bucket → Bucket × Bucket
  | 0, old, nw => (old, nw)
  | i + 1, old, nw =>
    match old.entries.get? i with
    | none => migrateGo hash mask lowerBits i old nw
    | some e =>
      if hash e.1 &&& mask = lowerBits then
        migrateGo hash mask lowerBits i (bucketRemoveAt old i)
          (bucketInsert nw e.1 e.2).2
      else migrateGo hash mask lowerBits i old nw

def migrateEntries (hash : Nat → Nat) (old nw : Bucket)
    (newBucketIdx mask : Nat) : Bucket × Bucket :=
  migrateGo hash mask (newBucketIdx &&& mask) old.entries.length old nw

/-- The `while (bucket->IsFull())` split loop of `InsertToNewBucket`, one
fuel per iteration: stop as soon as the bucket is no longer full (`true`);
report capacity exhaustion (`false`) when the bucket's depth equals a
directory already at its maximum size; otherwise grow the directory if
needed, raise the local depths of the bucket's class, allocate and wire the
split image, and migrate entries. -/
def splitLoop (cfg : HTConfig) :
    Nat → HTState → Int → Nat → Int → Except String (Bool × HTState)
  | 0, _, _, _, _ => Except.error "fuel exhausted in split loop"
  | f + 1, s, dpid, bIdx, bPid =>
    if ¬ bucketIsFull (fetchBucket s bPid) then Except.ok (true, s)
    else
      let d := fetchDir s dpid
      let l0 := d.localDepths bIdx
      if l0 = d.globalDepth ∧ dirSize d = dirMaxSize d then Except.ok (false, s)
      else
        let d1 := if l0 = d.globalDepth then incrGlobalDepth d else d
        let l := (l0 + 1) % 256
        match getLocalDepthMaskE d1 bIdx with
        | Except.error e => Except.error e
        | Except.ok oldMask =>
          let d2 := updateLocalDepthMapping d1 bIdx l oldMask
          let (nbPid, sA) := allocPage s
          let sB := updBucket sA nbPid (bucketInit cfg.bucketMaxSize)
          let newBucketIdx := getSplitImageIndex d2 bIdx
          let newMask := oldMask + 2 ^ (l - 1)
          let d3 := updatePageIdMapping d2 newBucketIdx nbPid newMask
          let mig := migrateEntries cfg.hash (fetchBucket sB bPid)
            (fetchBucket sB nbPid) newBucketIdx newMask
          let sC := updBucket (updBucket sB bPid mig.1) nbPid mig.2
          splitLoop cfg f (updDir sC dpid d3) dpid bIdx bPid

/-- Model of `DiskExtendibleHashTable::InsertToNewBucket`: create the bucket
when the slot is invalid; run the split loop; after any split re-enter with
the directory's new mapping, else insert into the (non-full) bucket. -/
def insertToNewBucket (cfg : HTConfig) :
    Nat → HTState → Int → Nat → Nat → Nat → Except String (Bool × HTState)
  | 0, _, _, _, _, _ => Except.error "fuel exhausted in insert"
  | f + 1, s, dpid, h, k, v =>
    let d := fetchDir s dpid
    let bIdx := hashToBucketIndex d h
    let bPid0 := d.bucketPageIds bIdx
    let create :=
      if bPid0 = -1 then
        let (p, s1) := allocPage s
        (p, updDir (updBucket s1 p (bucketInit cfg.bucketMaxSize)) dpid
             (setLocalDepth (setBucketPageId d bIdx p) bIdx 0))
      else (bPid0, s)
    let bPid := create.1
    let s1 := create.2
    match splitLoop cfg f s1 dpid bIdx bPid with
    | Except.error e => Except.error e
    | Except.ok (false, s2) => Except.ok (false, s2)
    | Except.ok (true, s2) =>
      if bucketIsFull (fetchBucket s1 bPid) then
        insertToNewBucket cfg f s2 dpid h k v
      else
        let ins := bucketInsert (fetchBucket s2 bPid) k v
        Except.ok (ins.1, updBucket s2 bPid ins.2)

/-- Model of `DiskExtendibleHashTable::Insert` /
`InsertToNewDirectory`: create the directory page when the header slot is
invalid, then insert through it. -/
def insertOp (cfg : HTConfig) (fuel : Nat) (s : HTState) (k v : Nat) :
    Except String (Bool × HTState) :=
  let h := cfg.hash k
  let dirIdx := hashToDirectoryIndex s.header h
  let dpid0 := s.header.directoryPageIds dirIdx
  let create :=
    if dpid0 = -1 then
      let (p, s1) := allocPage s
      (p, { updDir s1 p (dirInit cfg.directoryMaxDepth) with
            header := setDirectoryPageId s.header dirIdx p })
    else (dpid0, s)
  insertToNewBucket cfg fuel create.2 create.1 h k v

/-- Model of `DiskExtendibleHashTable::GetValue`. -/
def getValueOp (cfg : HTConfig) (s : HTState) (k : Nat) : Bool :=
  let h := cfg.hash k
  let dirIdx := hashToDirectoryIndex s.header h
  let dpid := s.header.directoryPageIds dirIdx
  if dpid = -1 then false
  else
    let d := fetchDir s dpid
    let bIdx := hashToBucketIndex d h
    let bPid := d.bucketPageIds bIdx
    if bPid = -1 then false
    else (bucketLookup (fetchBucket s bPid) k).isSome

/-- Model of `DiskExtendibleHashTable::Remove`: `false` only when the
directory or bucket page id is invalid; otherwise remove from the bucket and,
when that emptied it, merge with the global-depth split image (the
`DeletePage` calls are pinned-page no-ops) and shrink once if permitted; the
function then returns `true` whether or not the key was found. -/
def removeOp (cfg : HTConfig) (s : HTState) (k : Nat) :
    Except String (Bool × HTState) :=
  let h := cfg.hash k
  let dirIdx := hashToDirectoryIndex s.header h
  let dpid := s.header.directoryPageIds dirIdx
  if dpid = -1 then Except.ok (false, s)
  else
    let d := fetchDir s dpid
    let bIdx := hashToBucketIndex d h
    let bPid := d.bucketPageIds bIdx
    if bPid = -1 then Except.ok (false, s)
    else
      let rem := bucketRemove (fetchBucket s bPid) k
      let s1 := updBucket s bPid rem.2
      if rem.1 ∧ bucketIsEmpty rem.2 then
        let mergedIdx := getSplitImageIndex d bIdx
        if mergedIdx = bIdx then
          Except.ok (true, { s1 with
            header := setDirectoryPageId s1.header dirIdx (-1) })
        else
          let mergedPid := d.bucketPageIds mergedIdx
          let mergedLd := (d.localDepths bIdx + 255) % 256
          match getLocalDepthMaskE d bIdx with
          | Except.error e => Except.error e
          | Except.ok mask =>
            let mask2 := mask / 2
            let d2 := updatePageIdMapping d mergedIdx mergedPid mask2
            let d3 := updateLocalDepthMapping d2 mergedIdx mergedLd mask2
            let d4 := if canShrink d3 then decrGlobalDepth d3 else d3
            Except.ok (true, updDir s1 dpid d4)
      else Except.ok (true, s1)

/-- One user-level hash-table operation. -/
inductive HTOp where
  | insert (k v : Nat)
  | remove (k : Nat)

/-- Run a sequence of operations with the given per-operation fuel; `none`
when an operation fails to complete (fuel ran out or the execution reached
undefined behaviour). -/
def runOps (cfg : HTConfig) (fuel : Nat) : HTState → List HTOp → Option HTState
  | s, [] => some s
  | s, op :: rest =>
    match (match op with
           | HTOp.insert k v => insertOp cfg fuel s k v
           | HTOp.remove k => removeOp cfg s k) with
    | Except.error _ => none
    | Except.ok (_, s1) => runOps cfg fuel s1 rest

/-- A small concrete configuration used to exercise the table: identity hash,
directory max depth 2, bucket size 2. -/
def idHashConfig : HTConfig := ⟨2, 2, fun k => k⟩

/-- An operation sequence whose final Remove triggers the merge path: the
split image of index 0 is taken at global depth 2 although the emptied
bucket's local depth is 1. -/
def lostKeyOps : List HTOp :=
  [HTOp.insert 0 100, HTOp.insert 2 102, HTOp.insert 1 101, HTOp.remove 2,
   HTOp.insert 3 103, HTOp.insert 5 105, HTOp.remove 0]

/-- The table state after three inserts under `idHashConfig` (global depth 2,
four directory slots, two of which share a bucket). -/
def htDemoState : HTState :=
  match runOps idHashConfig 30 (mkHashTable 0)
      [HTOp.insert 0 7, HTOp.insert 2 8, HTOp.insert 1 9] with
  | some s => s
  | none => mkHashTable 0

/-- The directory-page invariant of claim C3: indices congruent modulo
`2^local_depth` share a bucket page id and a local depth. -/
def ClassInv (d : DirPage) : Prop :=
  ∀ i, i < dirSize d → ∀ j, j < dirSize d →
    i % 2 ^ d.localDepths i = j % 2 ^ d.localDepths i →
    d.bucketPageIds i = d.bucketPageIds j ∧ d.localDepths i = d.localDepths j

/-- The inductive strengthening of `ClassInv`: an invalid bucket page id only
at global depth 0; local depths bounded by the global depth unless a
local-depth underflow has stored 255 everywhere; depth caps. -/
def DirInv (d : DirPage) : Prop :=
  ClassInv d ∧
  (∀ i, i < dirSize d → d.bucketPageIds i = -1 → d.globalDepth = 0) ∧
  ((∀ i, i < dirSize d → d.localDepths i ≤ d.globalDepth) ∨
    (1 ≤ d.globalDepth ∧ ∀ i, i < dirSize d → d.localDepths i = 255)) ∧
  d.globalDepth ≤ d.maxDepth ∧ d.maxDepth ≤ htableDirectoryMaxDepth

/-- The table-level invariant: every directory page the buffer pool can hand
out (including the all-zero image of a never-written page) satisfies
`DirInv`, and page ids are non-negative. -/
def HTInv (s : HTState) : Prop :=
  0 ≤ s.nextPageId ∧ ∀ pid : Int, DirInv (fetchDir s pid)

/-- The two directory mutations of one split-loop iteration, as `splitLoop`
performs them for a bucket at slot `bIdx` of local depth `l0` (an
abbreviation used to state the preservation lemma). -/
def splitDirUpdate (e : DirPage) (bIdx l0 : Nat) (nbPid : Int) : DirPage :=
  updatePageIdMapping (updateLocalDepthMapping e bIdx (l0 + 1) (2 ^ l0 - 1))
    (getSplitImageIndex (updateLocalDepthMapping e bIdx (l0 + 1) (2 ^ l0 - 1))
      bIdx)
    nbPid (2 ^ (l0 + 1) - 1)

/-- The two directory mutations of the merge path of `removeOp` (an
abbreviation used to state the preservation lemma). -/
def mergeDirUpdate (d : DirPage) (bIdx : Nat) : DirPage :=
  updateLocalDepthMapping
    (updatePageIdMapping d (getSplitImageIndex d bIdx)
      (d.bucketPageIds (getSplitImageIndex d bIdx))
      ((2 ^ d.localDepths bIdx - 1) / 2))
    (getSplitImageIndex d bIdx) ((d.localDepths bIdx + 255) % 256)
    ((2 ^ d.localDepths bIdx - 1) / 2)

/-! ## Theorems -/

/-! ### Watermark lemmas and claim C9 -/

theorem mapIncr_ne_nil (l : List (Nat × Nat)) (ts : Nat) : mapIncr l ts ≠ [] := by
  cases l with
  | nil => simp [mapIncr]
  | cons hd tl =>
    obtain ⟨k, c⟩ := hd
    simp only [mapIncr]
    split
    · simp
    · split <;> simp

theorem mapIncr_mem {l : List (Nat × Nat)} {ts : Nat} {p : Nat × Nat}
    (h : p ∈ mapIncr l ts) :
    p ∈ l ∨ p = (ts, 1) ∨ ∃ c, (ts, c) ∈ l ∧ p = (ts, c + 1) := by
  induction l with
  | nil =>
    simp [mapIncr] at h
    exact Or.inr (Or.inl h)
  | cons hd tl ih =>
    obtain ⟨k, c⟩ := hd
    simp only [mapIncr] at h
    split at h
    · rcases List.mem_cons.mp h with h1 | h1
      · exact Or.inr (Or.inl h1)
      · exact Or.inl h1
    · rename_i hlt
      split at h
      · rename_i heq2
        subst heq2
        rcases List.mem_cons.mp h with h1 | h1
        · exact Or.inr (Or.inr ⟨c, List.mem_cons_self _ _, h1⟩)
        · exact Or.inl (List.mem_cons_of_mem _ h1)
      · rcases List.mem_cons.mp h with h1 | h1
        · exact Or.inl (h1 ▸ List.mem_cons_self _ _)
        · rcases ih h1 with h2 | h2 | ⟨c2, hc2, hp⟩
          · exact Or.inl (List.mem_cons_of_mem _ h2)
          · exact Or.inr (Or.inl h2)
          · exact Or.inr (Or.inr ⟨c2, List.mem_cons_of_mem _ hc2, hp⟩)

theorem mapIncr_sorted {l : List (Nat × Nat)} {ts : Nat} (h : wmSorted l) :
    wmSorted (mapIncr l ts) := by
  induction l with
  | nil => simp [mapIncr, wmSorted]
  | cons hd tl ih =>
    obtain ⟨k, c⟩ := hd
    obtain ⟨h1, h2⟩ := h
    simp only [mapIncr]
    split
    · rename_i hlt
      refine ⟨?_, h1, h2⟩
      intro p hp
      rcases List.mem_cons.mp hp with h3 | h3
      · simpa [h3] using hlt
      · exact lt_trans hlt (h1 p h3)
    · rename_i hlt
      split
      · exact ⟨h1, h2⟩
      · rename_i hne
        refine ⟨?_, ih h2⟩
        intro p hp
        rcases mapIncr_mem hp with h3 | h3 | ⟨c2, hc2, hp2⟩
        · exact h1 p h3
        · subst h3
          omega
        · subst hp2
          simpa using h1 _ hc2

theorem mapDecr_keys {l : List (Nat × Nat)} {ts : Nat} {p : Nat × Nat}
    (h : p ∈ mapDecr l ts) : ∃ q ∈ l, p.1 = q.1 := by
  induction l with
  | nil => simp [mapDecr] at h
  | cons hd tl ih =>
    obtain ⟨k, c⟩ := hd
    simp only [mapDecr] at h
    split at h
    · split at h
      · exact ⟨p, List.mem_cons_of_mem _ h, rfl⟩
      · rcases List.mem_cons.mp h with h1 | h1
        · exact ⟨(k, c), List.mem_cons_self _ _, by simp [h1]⟩
        · exact ⟨p, List.mem_cons_of_mem _ h1, rfl⟩
    · rcases List.mem_cons.mp h with h1 | h1
      · exact ⟨(k, c), List.mem_cons_self _ _, by simp [h1]⟩
      · obtain ⟨q, hq, hpq⟩ := ih h1
        exact ⟨q, List.mem_cons_of_mem _ hq, hpq⟩

theorem mapDecr_bounds {l : List (Nat × Nat)} {ts L : Nat}
    (h : ∀ q ∈ l, 1 ≤ q.2 ∧ q.1 ≤ L) :
    ∀ p ∈ mapDecr l ts, 1 ≤ p.2 ∧ p.1 ≤ L := by
  induction l with
  | nil => simp [mapDecr]
  | cons hd tl ih =>
    obtain ⟨k, c⟩ := hd
    intro p hp
    simp only [mapDecr] at hp
    split at hp
    · split at hp
      · exact h p (List.mem_cons_of_mem _ hp)
      · rename_i hc
        rcases List.mem_cons.mp hp with h1 | h1
        · subst h1
          exact ⟨by omega, (h (k, c) (List.mem_cons_self _ _)).2⟩
        · exact h p (List.mem_cons_of_mem _ h1)
    · rcases List.mem_cons.mp hp with h1 | h1
      · exact h1 ▸ h (k, c) (List.mem_cons_self _ _)
      · exact ih (fun q hq => h q (List.mem_cons_of_mem _ hq)) p h1

theorem mapDecr_sorted {l : List (Nat × Nat)} {ts : Nat} (h : wmSorted l) :
    wmSorted (mapDecr l ts) := by
  induction l with
  | nil => simpa [mapDecr] using h
  | cons hd tl ih =>
    obtain ⟨k, c⟩ := hd
    obtain ⟨h1, h2⟩ := h
    simp only [mapDecr]
    split
    · split
      · exact h2
      · exact ⟨h1, h2⟩
    · refine ⟨?_, ih h2⟩
      intro p hp
      obtain ⟨q, hq, hpq⟩ := mapDecr_keys hp
      exact hpq ▸ h1 q hq

theorem wmInv_init (l : Nat) : WmInv (mkWatermark l) := by
  refine ⟨trivial, ?_, fun _ => rfl, ?_⟩ <;> simp [mkWatermark]

theorem wmInv_add {s s' : Watermark} {ts : Nat} (hInv : WmInv s)
    (hts : ts = s.latestCommitTs) (h : wmAddTxn s ts = some s') : WmInv s' := by
  obtain ⟨L, W, A⟩ := s
  obtain ⟨hSort, hBnd, hEmp, hHead⟩ := hInv
  simp only at hts hSort hBnd hEmp hHead
  unfold wmAddTxn at h
  rw [if_neg (show ¬ ts < L by omega)] at h
  obtain rfl := Option.some.inj h
  refine ⟨mapIncr_sorted hSort, ?_, ?_, ?_⟩
  · intro p hp
    rcases mapIncr_mem hp with h1 | h1 | ⟨c, hc, hp2⟩
    · exact hBnd p h1
    · subst h1
      exact ⟨le_refl 1, hts.le⟩
    · subst hp2
      exact ⟨by omega, hts.le⟩
  · intro hnil
    exact absurd hnil (mapIncr_ne_nil _ _)
  · intro k c rest hEq
    simp only at hEq ⊢
    cases hA : A with
    | nil =>
      rw [hA] at hEq
      simp only [mapIncr, List.cons.injEq, Prod.mk.injEq] at hEq
      obtain ⟨⟨hk, -⟩, -⟩ := hEq
      rw [← hk, hts]
      exact hEmp hA
    | cons hd tl =>
      obtain ⟨k0, c0⟩ := hd
      have hk0 : k0 ≤ L := (hBnd (k0, c0) (by simp [hA])).2
      rw [hA] at hEq
      simp only [mapIncr, if_neg (show ¬ ts < k0 by omega)] at hEq
      split at hEq
      · simp only [List.cons.injEq, Prod.mk.injEq] at hEq
        obtain ⟨⟨hk, -⟩, -⟩ := hEq
        rw [← hk]
        exact hHead k0 c0 tl hA
      · simp only [List.cons.injEq, Prod.mk.injEq] at hEq
        obtain ⟨⟨hk, -⟩, -⟩ := hEq
        rw [← hk]
        exact hHead k0 c0 tl hA

theorem wmInv_remove {s : Watermark} (ts : Nat) (hInv : WmInv s) :
    WmInv (wmRemoveTxn s ts) := by
  obtain ⟨L, W, A⟩ := s
  obtain ⟨hSort, hBnd, hEmp, hHead⟩ := hInv
  simp only at hSort hBnd hEmp hHead
  unfold wmRemoveTxn
  cases hLook : mapLookup A ts with
  | none => exact ⟨hSort, hBnd, hEmp, hHead⟩
  | some c =>
    simp only
    split
    · refine ⟨mapDecr_sorted hSort, mapDecr_bounds hBnd, ?_, ?_⟩
      · intro hnil
        simp only at hnil
        simp only [hnil]
      · intro k c2 rest hEq
        simp only at hEq ⊢
        simp only [hEq]
    · rename_i hc
      refine ⟨mapDecr_sorted hSort, mapDecr_bounds hBnd, ?_, ?_⟩
      · intro hnil
        simp only at hnil
        cases hA : A with
        | nil => simp [hA, mapLookup] at hLook
        | cons hd tl =>
          obtain ⟨k0, c0⟩ := hd
          rw [hA] at hnil
          simp only [mapDecr] at hnil
          split at hnil
          · rename_i hts2
            have hcc : c0 = c := by
              rw [hA] at hLook
              simpa [mapLookup, if_pos hts2] using hLook
            rw [if_neg (by omega)] at hnil
            exact absurd hnil (by simp)
          · exact absurd hnil (by simp)
      · intro k c2 rest hEq
        simp only at hEq ⊢
        cases hA : A with
        | nil => simp [hA, mapLookup] at hLook
        | cons hd tl =>
          obtain ⟨k0, c0⟩ := hd
          rw [hA] at hEq
          simp only [mapDecr] at hEq
          split at hEq
          · rename_i hts2
            have hcc : c0 = c := by
              rw [hA] at hLook
              simpa [mapLookup, if_pos hts2] using hLook
            rw [if_neg (by omega)] at hEq
            simp only [List.cons.injEq, Prod.mk.injEq] at hEq
            obtain ⟨⟨hk, -⟩, -⟩ := hEq
            rw [← hk]
            exact hHead k0 c0 tl hA
          · simp only [List.cons.injEq, Prod.mk.injEq] at hEq
            obtain ⟨⟨hk, -⟩, -⟩ := hEq
            rw [← hk]
            exact hHead k0 c0 tl hA

theorem wmInv_update {s s' : Watermark} {cts : Nat} (hInv : WmInv s)
    (hne : s.activeReadTimestamps ≠ []) (h : wmUpdateCommitTs s cts = some s') :
    WmInv s' := by
  obtain ⟨L, W, A⟩ := s
  obtain ⟨hSort, hBnd, hEmp, hHead⟩ := hInv
  simp only at hSort hBnd hEmp hHead hne
  unfold wmUpdateCommitTs at h
  split at h
  · rename_i hlt
    obtain rfl := Option.some.inj h
    refine ⟨hSort, ?_, fun hnil => absurd hnil hne, fun k c rest hEq => hHead k c rest hEq⟩
    intro p hp
    exact ⟨(hBnd p hp).1, le_trans (hBnd p hp).2 (le_of_lt hlt)⟩
  · exact absurd h (by simp)

theorem wmReach_inv {s : Watermark} (h : WmReach s) : WmInv s := by
  induction h with
  | init l => exact wmInv_init l
  | add _ hts hstep ih => exact wmInv_add ih hts hstep
  | remove ts _ ih => exact wmInv_remove ts ih
  | update _ hne hstep ih => exact wmInv_update ih hne hstep

/-- Claim C9, counterexample.  The claim quantifies over every operation
sequence in which each `add ts` satisfies `ts ≥ latest_commit_ts` at call time,
and asserts that the min query then returns the smallest tracked read
timestamp whenever one is tracked.  The sequence
`add 0; add 5; remove 0; add 1` from `Watermark(0)` satisfies that
precondition (`wmClaimPre`), ends with read timestamps `{1, 5}` tracked, yet
`GetWatermark` returns the stale cached value `5` instead of the minimum `1`:
`AddTxn` never refreshes `current_watermark_`, which was last set by the
erasing `RemoveTxn` when the smallest key was `5`. -/
theorem watermark_min_query_counterexample :
    wmClaimPre (mkWatermark 0) [WmOp.add 0, WmOp.add 5, WmOp.remove 0, WmOp.add 1] = true ∧
    wmRun (mkWatermark 0) [WmOp.add 0, WmOp.add 5, WmOp.remove 0, WmOp.add 1] =
      some ⟨0, 5, [(1, 1), (5, 1)]⟩ ∧
    (1, 1) ∈ (⟨0, 5, [(1, 1), (5, 1)]⟩ : Watermark).activeReadTimestamps ∧
    (∀ p ∈ (⟨0, 5, [(1, 1), (5, 1)]⟩ : Watermark).activeReadTimestamps, 1 ≤ p.1) ∧
    wmGetWatermark ⟨0, 5, [(1, 1), (5, 1)]⟩ = 5 := by
  decide

/-- Claim C9, amended.  For every sequence of watermark operations in which
each `add(ts)` is called with `ts` equal to `latest_commit_ts` (as `Begin`
does), and each update-commit-ts has a strictly larger timestamp and is called
while at least one read timestamp is tracked (as `Commit` does), the min query
`GetWatermark` returns `latest_commit_ts` when no read timestamps are tracked,
and otherwise returns the smallest tracked read timestamp. -/
theorem watermark_min_query_disciplined {s : Watermark} (h : WmReach s) :
    (s.activeReadTimestamps = [] → wmGetWatermark s = s.latestCommitTs) ∧
    (∀ p ∈ s.activeReadTimestamps, wmGetWatermark s ≤ p.1) ∧
    (s.activeReadTimestamps ≠ [] →
      ∃ p ∈ s.activeReadTimestamps, wmGetWatermark s = p.1) := by
  obtain ⟨hSort, hBnd, hEmp, hHead⟩ := wmReach_inv h
  cases hA : s.activeReadTimestamps with
  | nil =>
    refine ⟨fun _ => by simp [wmGetWatermark, hA], by simp, fun hne => absurd rfl hne⟩
  | cons hd tl =>
    obtain ⟨k, c⟩ := hd
    have hGet : wmGetWatermark s = k := by
      unfold wmGetWatermark
      rw [if_neg (by simp [hA])]
      exact hHead k c tl hA
    refine ⟨fun hnil => absurd hnil (by simp), ?_, ?_⟩
    · intro p hp
      rcases List.mem_cons.mp hp with h1 | h1
      · simp [hGet, h1]
      · rw [hA] at hSort
        exact hGet ▸ le_of_lt (hSort.1 p h1)
    · intro _
      exact ⟨(k, c), List.mem_cons_self _ _, hGet⟩

/-! ### LRU-K replacer lemmas and claim C5 -/

theorem foldlMin_spec (f : LRUKNode → Nat) (xs : List LRUKNode) :
    ∀ x : LRUKNode,
      (xs.foldl (fun acc y => if f y < f acc then y else acc) x) ∈ x :: xs ∧
      ∀ m ∈ x :: xs,
        f (xs.foldl (fun acc y => if f y < f acc then y else acc) x) ≤ f m := by
  induction xs with
  | nil =>
    intro x
    refine ⟨List.mem_cons_self _ _, ?_⟩
    intro m hm
    rcases List.mem_cons.mp hm with rfl | h1
    · exact le_refl _
    · exact absurd h1 (List.not_mem_nil m)
  | cons y ys ih =>
    intro x
    simp only [List.foldl_cons]
    by_cases hc : f y < f x
    · rw [if_pos hc]
      obtain ⟨hmem, hmin⟩ := ih y
      refine ⟨?_, ?_⟩
      · rcases List.mem_cons.mp hmem with h1 | h1
        · rw [h1]
          exact List.mem_cons_of_mem _ (List.mem_cons_self _ _)
        · exact List.mem_cons_of_mem _ (List.mem_cons_of_mem _ h1)
      · intro m hm
        rcases List.mem_cons.mp hm with rfl | h1
        · exact le_of_lt (lt_of_le_of_lt (hmin y (List.mem_cons_self _ _)) hc)
        · exact hmin m h1
    · rw [if_neg hc]
      obtain ⟨hmem, hmin⟩ := ih x
      refine ⟨?_, ?_⟩
      · rcases List.mem_cons.mp hmem with h1 | h1
        · rw [h1]
          exact List.mem_cons_self _ _
        · exact List.mem_cons_of_mem _ (List.mem_cons_of_mem _ h1)
      · intro m hm
        rcases List.mem_cons.mp hm with rfl | h1
        · exact hmin m (List.mem_cons_self _ _)
        · rcases List.mem_cons.mp h1 with rfl | h2
          · exact le_trans (hmin x (List.mem_cons_self _ _)) (not_lt.mp hc)
          · exact hmin m (List.mem_cons_of_mem _ h2)

theorem minElement_spec (f : LRUKNode → Nat) {l : List LRUKNode} (h : l ≠ []) :
    ∃ n, minElement f l = some n ∧ n ∈ l ∧ ∀ m ∈ l, f n ≤ f m := by
  cases l with
  | nil => exact absurd rfl h
  | cons x xs =>
    obtain ⟨hmem, hmin⟩ := foldlMin_spec f xs x
    exact ⟨_, rfl, hmem, hmin⟩

theorem lruSize_eq_length (r : LRUKReplacer) :
    lruSize r = (lruEvictableNodes r).length := by
  unfold lruSize lruEvictableNodes
  generalize r.nodeStore = l
  induction l with
  | nil => rfl
  | cons hd tl ih =>
    obtain ⟨a, b⟩ := hd
    by_cases hb : b.isEvictable <;> simp [List.filter_cons, hb, ih]

/-- Claim C5, counterexample.  Accesses: frame 1 at times 1 and 10, frame 2 at
time 5, with `k = 3`, both frames evictable.  Both have fewer than `k`
recorded accesses, so by the claim the victim must be the frame whose earliest
(first / oldest) recorded timestamp is smallest, i.e. frame 1 (oldest access
at time 1 versus frame 2's at time 5).  The code instead minimises
`GetEarliestTimestamp`, which reads `history_.front()` — the most recent
access (10 for frame 1, 5 for frame 2) — and therefore evicts frame 2. -/
theorem lruk_evict_claim_counterexample :
    lruEvictableInfNodes
        (lruSetEvictable (lruSetEvictable (lruRecordAccess (lruRecordAccess
          (lruRecordAccess (mkLRUKReplacer 4 3) 1 1) 2 5) 1 10) 1 true) 2 true) =
      [⟨3, 1, [10, 1], true⟩, ⟨3, 2, [5], true⟩] ∧
    (⟨3, 1, [10, 1], true⟩ : LRUKNode).history.getLastD 0 = 1 ∧
    (⟨3, 2, [5], true⟩ : LRUKNode).history.getLastD 0 = 5 ∧
    (lruEvict
        (lruSetEvictable (lruSetEvictable (lruRecordAccess (lruRecordAccess
          (lruRecordAccess (mkLRUKReplacer 4 3) 1 1) 2 5) 1 10) 1 true) 2 true)).map
        Prod.fst = some 2 ∧
    (2 : Nat) ≠ 1 := by
  decide

/-- Claim C5, amended.  For every replacer state with at least one evictable
frame, `Evict` succeeds and selects the victim as follows: if some evictable
frame has fewer than `k` recorded accesses (backward k-distance `+∞`), the
victim is, among those, a frame whose most recent access timestamp is minimal
(classical LRU on the last access, not on the first); otherwise the victim is
an evictable frame whose kth most-recent access timestamp is minimal,
i.e. whose backward k-distance (now minus that timestamp) is largest.  Ties
are broken by the node store's iteration order (first minimum), not by the
earliest timestamp. -/
theorem lruk_evict_victim_policy {r : LRUKReplacer} (h : lruSize r ≠ 0) :
    ∃ n, lruEvict r = some (n.fid, lruEraseFrame r n.fid) ∧
      n ∈ lruEvictableNodes r ∧
      ((lruEvictableInfNodes r = [] ∧
          ∀ m ∈ lruEvictableNodes r, n.getBackwardKDist ≤ m.getBackwardKDist) ∨
       (lruEvictableInfNodes r ≠ [] ∧ n.hasInfBackwardKDist = true ∧
          ∀ m ∈ lruEvictableInfNodes r,
            n.getEarliestTimestamp ≤ m.getEarliestTimestamp)) := by
  have hEvNe : lruEvictableNodes r ≠ [] := by
    intro hnil
    apply h
    rw [lruSize_eq_length, hnil]
    rfl
  by_cases hinf : lruEvictableInfNodes r = []
  · obtain ⟨n, hn_eq, hn_mem, hn_min⟩ :=
      minElement_spec LRUKNode.getBackwardKDist hEvNe
    refine ⟨n, ?_, hn_mem, Or.inl ⟨hinf, hn_min⟩⟩
    unfold lruEvict
    rw [if_neg h, if_pos hinf, hn_eq]
  · have hInfNe : lruEvictableInfNodes r ≠ [] := hinf
    obtain ⟨n, hn_eq, hn_mem, hn_min⟩ :=
      minElement_spec LRUKNode.getEarliestTimestamp hInfNe
    refine ⟨n, ?_, List.mem_of_mem_filter hn_mem,
      Or.inr ⟨hInfNe, List.of_mem_filter hn_mem, hn_min⟩⟩
    unfold lruEvict
    rw [if_neg h, if_neg hinf, hn_eq]

/-- Witness for C5 (amended): the victim-policy theorem applied to a concrete
single-frame replacer state. -/
theorem lruk_evict_victim_policy_witness :
    ∃ n, lruEvict ⟨[(1, ⟨2, 1, [10, 1], true⟩)], 4, 2⟩ =
        some (n.fid, lruEraseFrame ⟨[(1, ⟨2, 1, [10, 1], true⟩)], 4, 2⟩ n.fid) ∧
      n ∈ lruEvictableNodes ⟨[(1, ⟨2, 1, [10, 1], true⟩)], 4, 2⟩ ∧
      ((lruEvictableInfNodes ⟨[(1, ⟨2, 1, [10, 1], true⟩)], 4, 2⟩ = [] ∧
          ∀ m ∈ lruEvictableNodes ⟨[(1, ⟨2, 1, [10, 1], true⟩)], 4, 2⟩,
            n.getBackwardKDist ≤ m.getBackwardKDist) ∨
       (lruEvictableInfNodes ⟨[(1, ⟨2, 1, [10, 1], true⟩)], 4, 2⟩ ≠ [] ∧
          n.hasInfBackwardKDist = true ∧
          ∀ m ∈ lruEvictableInfNodes ⟨[(1, ⟨2, 1, [10, 1], true⟩)], 4, 2⟩,
            n.getEarliestTimestamp ≤ m.getEarliestTimestamp)) :=
  lruk_evict_victim_policy (by decide)

/-! ### Buffer pool manager lemmas and claims C8, C10 -/

theorem lruEvict_exists {r : LRUKReplacer} (h : lruSize r ≠ 0) :
    ∃ fid rep, lruEvict r = some (fid, rep) := by
  have hEvNe : lruEvictableNodes r ≠ [] := by
    intro hnil
    apply h
    rw [lruSize_eq_length, hnil]
    rfl
  unfold lruEvict
  rw [if_neg h]
  by_cases hinf : lruEvictableInfNodes r = []
  · obtain ⟨n, hn_eq, -, -⟩ := minElement_spec LRUKNode.getBackwardKDist hEvNe
    rw [if_pos hinf, hn_eq]
    exact ⟨n.fid, lruEraseFrame r n.fid, rfl⟩
  · obtain ⟨n, hn_eq, -, -⟩ := minElement_spec LRUKNode.getEarliestTimestamp hinf
    rw [if_neg hinf, hn_eq]
    exact ⟨n.fid, lruEraseFrame r n.fid, rfl⟩

theorem getFreeFrameId_none_iff (s : BufferPoolManager) :
    getFreeFrameId s = none ↔ s.freeList = [] ∧ lruSize s.replacer = 0 := by
  unfold getFreeFrameId
  by_cases h1 : s.freeList = [] ∧ lruSize s.replacer = 0
  · rw [if_pos h1]
    exact iff_of_true rfl h1
  · rw [if_neg h1]
    by_cases h2 : s.freeList = []
    · rw [if_pos h2]
      have hsz : lruSize s.replacer ≠ 0 := fun hz => h1 ⟨h2, hz⟩
      obtain ⟨fid, rep, hev⟩ := lruEvict_exists hsz
      rw [hev]
      exact iff_of_false (by simp) h1
    · rw [if_neg h2]
      cases hfl : s.freeList with
      | nil => exact absurd hfl h2
      | cons f rest => exact iff_of_false (by simp) (by simp [hfl])

/-- Claim C8, counterexample.  A pool of one frame holding pinned page 5, with
an empty free list and zero evictable frames: the claim's "return `None`
exactly when the pool is full and no frame is evictable" demands that
`fetch_page(5)` fail here, yet the resident fast path pins and returns the
frame. -/
theorem bpm_fail_iff_counterexample :
    (fetchPage ⟨[⟨5, 1, false⟩], [(5, 0)], [],
        ⟨[(0, ⟨2, 0, [0], false⟩)], 1, 2⟩, 6, [], 1⟩ 5).1 = some 0 ∧
    (⟨[⟨5, 1, false⟩], [(5, 0)], [],
        ⟨[(0, ⟨2, 0, [0], false⟩)], 1, 2⟩, 6, [], 1⟩ :
        BufferPoolManager).freeList = [] ∧
    lruSize (⟨[⟨5, 1, false⟩], [(5, 0)], [],
        ⟨[(0, ⟨2, 0, [0], false⟩)], 1, 2⟩, 6, [], 1⟩ :
        BufferPoolManager).replacer = 0 ∧
    some 0 ≠ (none : Option Nat) := by
  decide

/-- Claim C8, amended.  `new_page` returns `None` exactly when the free list
is empty and the replacer holds zero evictable frames; `fetch_page` returns
`None` exactly when additionally the requested page is not resident — a
resident page is pinned and returned regardless of pool occupancy.  In every
other case both return a valid frame.  (Disk requests are modelled as
succeeding; an I/O failure is the one other way the code returns `nullptr`.) -/
theorem bpm_new_fetch_fail_iff (s : BufferPoolManager) (pid : Int) :
    ((newPage s).1 = none ↔ s.freeList = [] ∧ lruSize s.replacer = 0) ∧
    ((fetchPage s pid).1 = none ↔
      ptLookup s.pageTable pid = none ∧ s.freeList = [] ∧
        lruSize s.replacer = 0) := by
  constructor
  · unfold newPage
    cases hGFe : getFreeFrameId s with
    | none => exact iff_of_true rfl ((getFreeFrameId_none_iff s).mp hGFe)
    | some p =>
      obtain ⟨fid, s1⟩ := p
      refine iff_of_false (by simp) (fun hr => ?_)
      rw [(getFreeFrameId_none_iff s).mpr hr] at hGFe
      cases hGFe
  · unfold fetchPage
    cases hpt : ptLookup s.pageTable pid with
    | some fid =>
      refine iff_of_false (by simp) (fun hr => ?_)
      cases hr.1
    | none =>
      cases hGFe : getFreeFrameId s with
      | none =>
        exact iff_of_true rfl ⟨rfl, (getFreeFrameId_none_iff s).mp hGFe⟩
      | some p =>
        obtain ⟨fid, s1⟩ := p
        refine iff_of_false (by simp) (fun hr => ?_)
        rw [(getFreeFrameId_none_iff s).mpr hr.2] at hGFe
        cases hGFe

theorem ptErase_lookup (t : List (Int × Nat)) (p : Int) :
    ptLookup (ptErase t p) p = none := by
  induction t with
  | nil => rfl
  | cons q rest ih =>
    obtain ⟨q1, q2⟩ := q
    by_cases hq : q1 = p
    · simpa [ptErase, List.filter_cons, hq] using ih
    · simp only [ptErase, List.filter_cons] at ih ⊢
      rw [if_pos (show ((q1, q2).1 != p) = true by simpa using hq)]
      simp only [ptLookup]
      rw [if_neg (fun h : p = q1 => hq h.symm)]
      exact ih

theorem lruRemove_not_mem (r : LRUKReplacer) (fid : Nat) :
    ∀ p ∈ (lruRemove r fid).nodeStore, p.1 ≠ fid := by
  unfold lruRemove
  split
  · intro p hp
    simp only [lruEraseFrame] at hp
    have := List.of_mem_filter hp
    simpa using this
  · rename_i hany
    intro p hp heq
    exact hany (List.any_eq_true.mpr ⟨p, hp, by simp [heq]⟩)

theorem listGetD_set {l : List Frame} {i : Nat} {a d : Frame} (h : i < l.length) :
    (l.set i a).getD i d = a := by
  induction l generalizing i with
  | nil => simp at h
  | cons hd tl ih =>
    cases i with
    | zero => rfl
    | succ j =>
      simp only [List.set, List.getD, List.getElem?_cons_succ] at *
      exact ih (by simpa using h)

/-- Claim C10.  `delete_page` on a page id that is not resident returns `true`
and changes nothing; on a resident page with positive pin count it returns
`false` and changes nothing; only a resident page with pin count zero is
removed: its page-table entry is erased, the frame is cleared (invalid page
id, pin count zero, clean) and pushed on the free list, the frame leaves the
replacer, and the page id is deallocated. -/
theorem buffer_delete_page_spec (s : BufferPoolManager) (pid : Int) (fid : Nat) :
    (ptLookup s.pageTable pid = none → deletePage s pid = (true, s)) ∧
    (ptLookup s.pageTable pid = some fid →
      0 < (s.frames.getD fid defaultFrame).pinCount →
      deletePage s pid = (false, s)) ∧
    (ptLookup s.pageTable pid = some fid →
      (s.frames.getD fid defaultFrame).pinCount = 0 →
      fid < s.frames.length →
      (deletePage s pid).1 = true ∧
      ptLookup (deletePage s pid).2.pageTable pid = none ∧
      ((deletePage s pid).2.frames.getD fid defaultFrame).pageId = -1 ∧
      ((deletePage s pid).2.frames.getD fid defaultFrame).pinCount = 0 ∧
      ((deletePage s pid).2.frames.getD fid defaultFrame).isDirty = false ∧
      fid ∈ (deletePage s pid).2.freeList ∧
      (∀ p ∈ (deletePage s pid).2.replacer.nodeStore, p.1 ≠ fid) ∧
      pid ∈ (deletePage s pid).2.deallocatedIds) := by
  refine ⟨?_, ?_, ?_⟩
  · intro hpt
    unfold deletePage
    rw [hpt]
  · intro hpt hpin
    unfold deletePage
    rw [hpt]
    simp only
    rw [if_pos hpin]
  · intro hpt hpin hlen
    unfold deletePage
    rw [hpt]
    simp only
    rw [if_neg (by omega)]
    refine ⟨rfl, ptErase_lookup _ _, ?_, ?_, ?_, by simp, lruRemove_not_mem _ _,
      by simp⟩
    · rw [listGetD_set hlen]
    · rw [listGetD_set hlen]
      exact hpin
    · rw [listGetD_set hlen]

/-- Witness for C10: the three branches of the delete-page theorem applied to
concrete pool states (absent page, pinned resident page, unpinned resident
page). -/
theorem buffer_delete_page_spec_witness :
    deletePage ⟨[defaultFrame], [], [0], mkLRUKReplacer 1 2, 0, [], 0⟩ 7 =
      (true, ⟨[defaultFrame], [], [0], mkLRUKReplacer 1 2, 0, [], 0⟩) ∧
    deletePage ⟨[⟨5, 1, false⟩], [(5, 0)], [],
        ⟨[(0, ⟨2, 0, [0], false⟩)], 1, 2⟩, 6, [], 1⟩ 5 =
      (false, ⟨[⟨5, 1, false⟩], [(5, 0)], [],
        ⟨[(0, ⟨2, 0, [0], false⟩)], 1, 2⟩, 6, [], 1⟩) ∧
    ((deletePage ⟨[⟨5, 0, false⟩], [(5, 0)], [],
        ⟨[(0, ⟨2, 0, [0], true⟩)], 1, 2⟩, 6, [], 1⟩ 5).1 = true ∧
      ptLookup (deletePage ⟨[⟨5, 0, false⟩], [(5, 0)], [],
        ⟨[(0, ⟨2, 0, [0], true⟩)], 1, 2⟩, 6, [], 1⟩ 5).2.pageTable 5 = none ∧
      ((deletePage ⟨[⟨5, 0, false⟩], [(5, 0)], [],
        ⟨[(0, ⟨2, 0, [0], true⟩)], 1, 2⟩, 6, [], 1⟩ 5).2.frames.getD 0
          defaultFrame).pageId = -1 ∧
      ((deletePage ⟨[⟨5, 0, false⟩], [(5, 0)], [],
        ⟨[(0, ⟨2, 0, [0], true⟩)], 1, 2⟩, 6, [], 1⟩ 5).2.frames.getD 0
          defaultFrame).pinCount = 0 ∧
      ((deletePage ⟨[⟨5, 0, false⟩], [(5, 0)], [],
        ⟨[(0, ⟨2, 0, [0], true⟩)], 1, 2⟩, 6, [], 1⟩ 5).2.frames.getD 0
          defaultFrame).isDirty = false ∧
      0 ∈ (deletePage ⟨[⟨5, 0, false⟩], [(5, 0)], [],
        ⟨[(0, ⟨2, 0, [0], true⟩)], 1, 2⟩, 6, [], 1⟩ 5).2.freeList ∧
      (∀ p ∈ (deletePage ⟨[⟨5, 0, false⟩], [(5, 0)], [],
        ⟨[(0, ⟨2, 0, [0], true⟩)], 1, 2⟩, 6, [], 1⟩ 5).2.replacer.nodeStore,
          p.1 ≠ 0) ∧
      (5 : Int) ∈ (deletePage ⟨[⟨5, 0, false⟩], [(5, 0)], [],
        ⟨[(0, ⟨2, 0, [0], true⟩)], 1, 2⟩, 6, [], 1⟩ 5).2.deallocatedIds) :=
  ⟨(buffer_delete_page_spec ⟨[defaultFrame], [], [0], mkLRUKReplacer 1 2, 0, [], 0⟩
        7 0).1 (by decide),
   (buffer_delete_page_spec ⟨[⟨5, 1, false⟩], [(5, 0)], [],
        ⟨[(0, ⟨2, 0, [0], false⟩)], 1, 2⟩, 6, [], 1⟩ 5 0).2.1 (by decide) (by decide),
   (buffer_delete_page_spec ⟨[⟨5, 0, false⟩], [(5, 0)], [],
        ⟨[(0, ⟨2, 0, [0], true⟩)], 1, 2⟩, 6, [], 1⟩ 5 0).2.2 (by decide) (by decide)
        (by decide)⟩

/-- Witness for C9 (amended): the disciplined-run theorem applied to the
concrete state reached by `Watermark(3)` followed by `AddTxn(3)`. -/
theorem watermark_min_query_disciplined_witness :
    ((⟨3, 3, [(3, 1)]⟩ : Watermark).activeReadTimestamps = [] →
      wmGetWatermark ⟨3, 3, [(3, 1)]⟩ = (⟨3, 3, [(3, 1)]⟩ : Watermark).latestCommitTs) ∧
    (∀ p ∈ (⟨3, 3, [(3, 1)]⟩ : Watermark).activeReadTimestamps,
      wmGetWatermark ⟨3, 3, [(3, 1)]⟩ ≤ p.1) ∧
    ((⟨3, 3, [(3, 1)]⟩ : Watermark).activeReadTimestamps ≠ [] →
      ∃ p ∈ (⟨3, 3, [(3, 1)]⟩ : Watermark).activeReadTimestamps,
        wmGetWatermark ⟨3, 3, [(3, 1)]⟩ = p.1) :=
  watermark_min_query_disciplined (WmReach.add (WmReach.init 3) rfl (by decide))

/-! ### Transaction manager lemmas and claims C1, C2 -/

theorem heapLookup_heapUpdate_self {h : List ((Nat × RID) × TupleMeta)}
    {key : Nat × RID} {m : TupleMeta} (hl : heapLookup h key = some m)
    (v : TupleMeta) : heapLookup (heapUpdate h key v) key = some v := by
  induction h with
  | nil => simp [heapLookup] at hl
  | cons q rest ih =>
    obtain ⟨k, m0⟩ := q
    by_cases hk : key = k
    · simp [heapUpdate, heapLookup, hk]
    · simp only [heapLookup, heapUpdate, if_neg hk] at hl ⊢
      exact ih hl

theorem heapLookup_heapUpdate_ne {h : List ((Nat × RID) × TupleMeta)}
    {key key' : Nat × RID} (hne : key' ≠ key) (v : TupleMeta) :
    heapLookup (heapUpdate h key v) key' = heapLookup h key' := by
  induction h with
  | nil => rfl
  | cons q rest ih =>
    obtain ⟨k, m0⟩ := q
    by_cases hk : key = k
    · subst hk
      simp [heapUpdate, heapLookup, if_neg hne]
    · simp only [heapUpdate, heapLookup, if_neg hk]
      by_cases hk2 : key' = k
      · simp [hk2]
      · simp only [if_neg hk2]
        exact ih

theorem stamp_preserves {cts : Nat} {ws : List (Nat × RID)}
    {h h2 : List ((Nat × RID) × TupleMeta)} {key : Nat × RID}
    (hs : stampWriteSet cts ws h = Except.ok h2)
    (hp : ∃ m, heapLookup h key = some m ∧ m.ts = cts) :
    ∃ m, heapLookup h2 key = some m ∧ m.ts = cts := by
  induction ws generalizing h with
  | nil =>
    simp only [stampWriteSet] at hs
    exact (Except.ok.inj hs) ▸ hp
  | cons e rest ih =>
    simp only [stampWriteSet] at hs
    cases hl : heapLookup h e with
    | none => rw [hl] at hs; exact absurd hs (by simp)
    | some m0 =>
      rw [hl] at hs
      apply ih hs
      obtain ⟨m, hm, hts⟩ := hp
      by_cases hk : key = e
      · subst hk
        exact ⟨{ m0 with ts := cts }, heapLookup_heapUpdate_self hl _, rfl⟩
      · exact ⟨m, (heapLookup_heapUpdate_ne hk _).symm ▸ hm, hts⟩

theorem stamp_spec {cts : Nat} {ws : List (Nat × RID)}
    {h h2 : List ((Nat × RID) × TupleMeta)}
    (hs : stampWriteSet cts ws h = Except.ok h2) :
    ∀ e ∈ ws, ∃ m, heapLookup h2 e = some m ∧ m.ts = cts := by
  induction ws generalizing h with
  | nil => simp
  | cons e rest ih =>
    simp only [stampWriteSet] at hs
    cases hl : heapLookup h e with
    | none => rw [hl] at hs; exact absurd hs (by simp)
    | some m0 =>
      rw [hl] at hs
      intro e2 he2
      rcases List.mem_cons.mp he2 with rfl | hmem
      · exact stamp_preserves hs
          ⟨{ m0 with ts := cts }, heapLookup_heapUpdate_self hl _, rfl⟩
      · exact ih hs e2 hmem

theorem mapLookup_none_of_gt {l : List (Nat × Nat)} {ts : Nat}
    (h : ∀ p ∈ l, ts < p.1) : mapLookup l ts = none := by
  induction l with
  | nil => rfl
  | cons q rest ih =>
    obtain ⟨k, c⟩ := q
    have hk := h (k, c) (List.mem_cons_self _ _)
    simp only [mapLookup, if_neg (show ¬ ts = k by omega)]
    exact ih (fun p hp => h p (List.mem_cons_of_mem _ hp))

theorem mapLookup_mapDecr {l : List (Nat × Nat)} {ts c : Nat}
    (hSort : wmSorted l) (hl : mapLookup l ts = some c) :
    mapLookup (mapDecr l ts) ts = if c - 1 = 0 then none else some (c - 1) := by
  induction l with
  | nil => simp [mapLookup] at hl
  | cons q rest ih =>
    obtain ⟨k, c0⟩ := q
    obtain ⟨hgt, hs⟩ := hSort
    by_cases hk : ts = k
    · have hc : c0 = c := by simpa [mapLookup, if_pos hk] using hl
      subst hc
      simp only [mapDecr, if_pos hk]
      by_cases hz : c0 - 1 = 0
      · rw [if_pos hz, if_pos hz]
        exact mapLookup_none_of_gt (fun p hp => hk ▸ hgt p hp)
      · rw [if_neg hz, if_neg hz]
        simp [mapLookup, if_pos hk]
    · simp only [mapLookup, if_neg hk] at hl
      simp only [mapDecr, if_neg hk, mapLookup, if_neg hk]
      exact ih hs hl

theorem wmRemoveTxn_latest (s : Watermark) (ts : Nat) :
    (wmRemoveTxn s ts).latestCommitTs = s.latestCommitTs := by
  unfold wmRemoveTxn
  cases mapLookup s.activeReadTimestamps ts with
  | none => rfl
  | some c =>
    simp only
    split <;> rfl

theorem wmRemoveTxn_active {s : Watermark} {ts c : Nat}
    (hl : mapLookup s.activeReadTimestamps ts = some c) :
    (wmRemoveTxn s ts).activeReadTimestamps =
      mapDecr s.activeReadTimestamps ts := by
  unfold wmRemoveTxn
  rw [hl]
  simp only
  split <;> rfl

theorem wmUpdateCommitTs_eq {s s' : Watermark} {cts : Nat}
    (h : wmUpdateCommitTs s cts = some s') :
    s' = { s with latestCommitTs := cts } := by
  unfold wmUpdateCommitTs at h
  split at h
  · exact (Option.some.inj h).symm
  · exact absurd h (by simp)

/-- Claim C1.  If `Commit` returns true then the commit timestamp was obtained
by incrementing the global `last_commit_ts`; every rid in the write set has
its base tuple metadata timestamp stamped with it; the transaction records it
and is COMMITTED; the watermark's latest-commit timestamp equals it; and one
occurrence of the transaction's `read_ts` is removed from the watermark's
multiset (the count decremented, the entry erased when it reaches zero). -/
theorem txn_commit_spec {mgr mgr2 : TxnMgr} {txn txn2 : Txn} {c : Nat}
    (hSort : wmSorted mgr.runningTxns.activeReadTimestamps)
    (hIn : mapLookup mgr.runningTxns.activeReadTimestamps txn.readTs = some c)
    (h : txnCommit mgr txn = Except.ok (true, mgr2, txn2)) :
    mgr2.lastCommitTs = mgr.lastCommitTs + 1 ∧
    txn2.commitTs = some (mgr.lastCommitTs + 1) ∧
    (∀ e ∈ txn.writeSet,
      ∃ m, heapLookup mgr2.heap e = some m ∧ m.ts = mgr.lastCommitTs + 1) ∧
    txn2.state = TxnState.committed ∧
    mgr2.runningTxns.latestCommitTs = mgr.lastCommitTs + 1 ∧
    mapLookup mgr2.runningTxns.activeReadTimestamps txn.readTs =
      (if c - 1 = 0 then none else some (c - 1)) := by
  unfold txnCommit at h
  split at h
  · exact absurd h (by simp)
  · split at h
    · rename_i hser
      exact absurd hser.2 (by simp [verifyTxn])
    · cases hst : stampWriteSet (mgr.lastCommitTs + 1) txn.writeSet mgr.heap with
      | error e => rw [hst] at h; exact absurd h (by simp)
      | ok h2 =>
        rw [hst] at h
        cases hwm : wmUpdateCommitTs mgr.runningTxns (mgr.lastCommitTs + 1) with
        | none => rw [hwm] at h; exact absurd h (by simp)
        | some w1 =>
          rw [hwm] at h
          have hX := congrArg (fun p => p.2.1) (Except.ok.inj h)
          have hY := congrArg (fun p => p.2.2) (Except.ok.inj h)
          simp only at hX hY
          subst hX
          subst hY
          obtain hw1 := wmUpdateCommitTs_eq hwm
          subst hw1
          refine ⟨rfl, rfl, stamp_spec hst, rfl, ?_, ?_⟩
          · rw [wmRemoveTxn_latest]
          · have hIn2 : mapLookup (Watermark.mk (mgr.lastCommitTs + 1)
                mgr.runningTxns.currentWatermark
                mgr.runningTxns.activeReadTimestamps).activeReadTimestamps
                txn.readTs = some c := hIn
            rw [wmRemoveTxn_active hIn2]
            exact mapLookup_mapDecr hSort hIn

/-- Witness for C1: the commit theorem applied to a one-transaction manager
with a single written tuple; its base metadata timestamp becomes the commit
timestamp 1, the watermark's latest-commit becomes 1 and the read timestamp 0
is erased from the watermark. -/
theorem txn_commit_spec_witness :
    (⟨1, [((1, (0, 0)), ⟨1, false⟩)], ⟨1, 1, []⟩⟩ : TxnMgr).lastCommitTs = 0 + 1 ∧
    (⟨42, IsoLevel.snapshotIsolation, TxnState.committed, 0, some 1,
        [(1, (0, 0))]⟩ : Txn).commitTs = some (0 + 1) ∧
    (∀ e ∈ (⟨42, IsoLevel.snapshotIsolation, TxnState.running, 0, none,
        [(1, (0, 0))]⟩ : Txn).writeSet,
      ∃ m, heapLookup (⟨1, [((1, (0, 0)), ⟨1, false⟩)], ⟨1, 1, []⟩⟩ :
        TxnMgr).heap e = some m ∧ m.ts = 0 + 1) ∧
    (⟨42, IsoLevel.snapshotIsolation, TxnState.committed, 0, some 1,
        [(1, (0, 0))]⟩ : Txn).state = TxnState.committed ∧
    (⟨1, [((1, (0, 0)), ⟨1, false⟩)], ⟨1, 1, []⟩⟩ :
        TxnMgr).runningTxns.latestCommitTs = 0 + 1 ∧
    mapLookup (⟨1, [((1, (0, 0)), ⟨1, false⟩)], ⟨1, 1, []⟩⟩ :
        TxnMgr).runningTxns.activeReadTimestamps 0 =
      (if 1 - 1 = 0 then none else some (1 - 1)) :=
  @txn_commit_spec ⟨0, [((1, (0, 0)), ⟨100, false⟩)], ⟨0, 0, [(0, 1)]⟩⟩
    ⟨1, [((1, (0, 0)), ⟨1, false⟩)], ⟨1, 1, []⟩⟩
    ⟨42, IsoLevel.snapshotIsolation, TxnState.running, 0, none, [(1, (0, 0))]⟩
    ⟨42, IsoLevel.snapshotIsolation, TxnState.committed, 0, some 1,
      [(1, (0, 0))]⟩
    1 (by simp [wmSorted]) (by decide) rfl

/-! ### Write-write conflict check: claim C2 -/

/-- Claim C2.  For every transaction in RUNNING state and rid list whose
tuples exist: if some examined rid's metadata timestamp is newer than the
transaction's read timestamp and differs from its temporary timestamp (its
transaction id), the check leaves the transaction TAINTED and throws
`WriteConflict`; if no rid conflicts, the transaction is unchanged and no
error occurs. -/
theorem check_ww_conflict_spec (txn : Txn) (tbl : List (RID × TupleMeta))
    (rids : List RID) (hRun : txn.state = TxnState.running)
    (hAll : ∀ rid ∈ rids, (tblLookup tbl rid).isSome = true) :
    ((∃ rid ∈ rids, conflictAt txn tbl rid = true) →
      checkWWConflict txn tbl rids =
        ({ txn with state := TxnState.tainted }, WWCOutcome.conflict)) ∧
    ((∀ rid ∈ rids, conflictAt txn tbl rid = false) →
      checkWWConflict txn tbl rids = (txn, WWCOutcome.ok)) := by
  induction rids with
  | nil =>
    refine ⟨?_, fun _ => rfl⟩
    rintro ⟨rid, hmem, -⟩
    exact absurd hmem (List.not_mem_nil _)
  | cons r rest ih =>
    have hAllr := hAll r (List.mem_cons_self _ _)
    cases hlr : tblLookup tbl r with
    | none => rw [hlr] at hAllr; simp at hAllr
    | some m =>
      obtain ⟨ih1, ih2⟩ := ih (fun rid hm => hAll rid (List.mem_cons_of_mem _ hm))
      unfold checkWWConflict
      rw [hlr]
      dsimp only
      by_cases hc : txn.readTs < m.ts ∧ m.ts ≠ txn.txnId
      · rw [if_pos hc, if_pos hRun]
        refine ⟨fun _ => rfl, fun hno => ?_⟩
        have hfalse := hno r (List.mem_cons_self _ _)
        unfold conflictAt at hfalse
        rw [hlr] at hfalse
        simp [hc.1, hc.2] at hfalse
      · rw [if_neg hc]
        constructor
        · rintro ⟨rid, hmem, hcf⟩
          rcases List.mem_cons.mp hmem with rfl | hmem2
          · exfalso
            unfold conflictAt at hcf
            rw [hlr] at hcf
            simp at hcf
            exact hc hcf
          · exact ih1 ⟨rid, hmem2, hcf⟩
        · intro hno
          exact ih2 (fun rid hm => hno rid (List.mem_cons_of_mem _ hm))

/-- Witness for C2: a RUNNING transaction at read ts 1 examining rids whose
metadata timestamps are 1 (no conflict) and 5 (conflict, 5 > 1 and 5 is no
temporary timestamp of this transaction): the check taints the transaction
and throws. -/
theorem check_ww_conflict_spec_witness :
    checkWWConflict
        ⟨42, IsoLevel.snapshotIsolation, TxnState.running, 1, none, []⟩
        [((0, 0), ⟨5, false⟩), ((0, 1), ⟨1, false⟩)] [(0, 1), (0, 0)] =
      (⟨42, IsoLevel.snapshotIsolation, TxnState.tainted, 1, none, []⟩,
        WWCOutcome.conflict) :=
  (check_ww_conflict_spec
      ⟨42, IsoLevel.snapshotIsolation, TxnState.running, 1, none, []⟩
      [((0, 0), ⟨5, false⟩), ((0, 1), ⟨1, false⟩)] [(0, 1), (0, 0)]
      rfl (by decide)).1 (by decide)

/-! ### MVCC sequential scan: claim C6 -/

/-- Claim C6, evaluated at the failing input (the claim states the filter is
applied to the tuple reconstructed for the reader's snapshot; the code applies
it to the current base tuple before reconstructing).  One row at rid (0,0):
base tuple (20) at timestamp 2, one undo log restoring (10) at timestamp 1; a
reader at read timestamp 1.  With filter `value = 10` the snapshot tuple (10)
exists and satisfies the filter, yet `Next` emits nothing, because the base
tuple (20) fails the filter and the row is skipped before reconstruction.
With filter `value = 20` the code emits the reconstructed tuple (10), a row
that violates the very predicate of the scan. -/
theorem seq_scan_predicate_on_base_eval :
    seqScanNext ⟨[((0, 0), ⟨5, 0⟩)], [(5, [⟨false, [true], [10], 1,
          invalidUndoLink⟩])], 0⟩
        ⟨42, IsoLevel.snapshotIsolation, TxnState.running, 1, none, []⟩
        (some (fun t => t == [10])) 10 [((0, 0), ⟨2, false⟩, [20])] = none ∧
    reconstructFromHeapAndLogs
        ⟨[((0, 0), ⟨5, 0⟩)], [(5, [⟨false, [true], [10], 1,
          invalidUndoLink⟩])], 0⟩
        ⟨42, IsoLevel.snapshotIsolation, TxnState.running, 1, none, []⟩
        [20] ⟨2, false⟩ (0, 0) 10 = some [10] ∧
    (([10] : List Int) == [10]) = true ∧
    seqScanNext ⟨[((0, 0), ⟨5, 0⟩)], [(5, [⟨false, [true], [10], 1,
          invalidUndoLink⟩])], 0⟩
        ⟨42, IsoLevel.snapshotIsolation, TxnState.running, 1, none, []⟩
        (some (fun t => t == [20])) 10 [((0, 0), ⟨2, false⟩, [20])] =
      some ([10], (0, 0)) ∧
    (([10] : List Int) == [20]) = false := by
  decide

/-! ### Extendible hash table: claims C4 and C7 -/

/-- Claim C4: the claim states that `Remove(k)` returns false for every key
`k` not stored in the table, also when the key's directory and bucket pages
exist but the bucket does not contain `k`.  Evaluation of the embedded
`removeOp` refutes this: after inserting key 1 (so the directory and the
bucket for the hash both exist), key 5 is not stored — `getValueOp` is false
— yet `removeOp` for key 5 returns true, because `Remove` returns `true`
unconditionally once both page lookups succeed, ignoring the bucket-level
removal result (disk_extendible_hash_table.cpp line 258). -/
theorem ht_remove_absent_key_returns_true_eval :
    ((runOps idHashConfig 20 (mkHashTable 0) [HTOp.insert 1 7]).map
      (fun s => getValueOp idHashConfig s 5)) = some false ∧
    ((runOps idHashConfig 20 (mkHashTable 0) [HTOp.insert 1 7]).bind
      (fun s => (removeOp idHashConfig s 5).toOption.map Prod.fst)) =
      some true := by
  exact ⟨rfl, rfl⟩

/-- Claim C7: the claim states that after any successful insert the key can
be looked up until it is removed, across splits and merges.  Evaluation of
the embedded operations refutes this: under `idHashConfig`, in the sequence
`lostKeyOps` the insert of key 1 succeeds (returns true), key 1 is never
removed and is still found directly before the final operation, yet after
the final `Remove` of key 0 `getValueOp` no longer finds key 1.  The merge
in `Remove` picks the image at distance `2^(global_depth-1)` from the
emptied bucket's index although that bucket's local depth is smaller, and
reroutes directory slots away from the bucket still holding keys 1 and 5. -/
theorem ht_stored_key_lost_after_remove_eval :
    ((runOps idHashConfig 30 (mkHashTable 0) (lostKeyOps.take 2)).bind
      (fun s => (insertOp idHashConfig 30 s 1 101).toOption.map Prod.fst)) =
      some true ∧
    ((runOps idHashConfig 30 (mkHashTable 0) (lostKeyOps.take 6)).map
      (fun s => getValueOp idHashConfig s 1)) = some true ∧
    ((runOps idHashConfig 30 (mkHashTable 0) lostKeyOps).map
      (fun s => getValueOp idHashConfig s 1)) = some false := by
  exact ⟨rfl, rfl, rfl⟩

/-! ### Extendible hash table: the directory invariant (claim C3) -/

theorem mod_pow_mono {i j a b : Nat} (hab : a ≤ b)
    (h : i % 2 ^ b = j % 2 ^ b) : i % 2 ^ a = j % 2 ^ a :=
  Nat.ModEq.of_dvd (pow_dvd_pow 2 hab) h

theorem mod_pow_inj {i j g dd : Nat} (hi : i < 2 ^ g) (hj : j < 2 ^ g)
    (hg : g ≤ dd) (h : i % 2 ^ dd = j % 2 ^ dd) : i = j := by
  have h2 : 2 ^ g ≤ 2 ^ dd := Nat.pow_le_pow_right (by omega) hg
  rwa [Nat.mod_eq_of_lt (lt_of_lt_of_le hi h2),
    Nat.mod_eq_of_lt (lt_of_lt_of_le hj h2)] at h

theorem two_pow_factor {l g : Nat} (h : l ≤ g) : 2 ^ g = 2 ^ l * 2 ^ (g - l) := by
  rw [← pow_add]
  congr 1
  omega

theorem splitImage_lt {d : DirPage} {b : Nat} (hb : b < dirSize d) :
    getSplitImageIndex d b < dirSize d := by
  rw [getSplitImageIndex]
  by_cases h1 : dirSize d = 1
  · rw [if_pos h1]
    exact hb
  · rw [if_neg h1]
    have hg : 1 ≤ d.globalDepth := by
      by_contra hg
      exact h1 (by simp [dirSize, show d.globalDepth = 0 by omega])
    have h2 : dirSize d = 2 * 2 ^ (d.globalDepth - 1) := by
      rw [dirSize]
      conv_lhs => rw [show d.globalDepth = (d.globalDepth - 1) + 1 by omega]
      rw [pow_succ]
      ring
    by_cases h3 : b < 2 ^ (d.globalDepth - 1)
    · rw [if_pos h3]
      omega
    · rw [if_neg h3]
      omega

theorem splitImage_mod {d : DirPage} {b : Nat} (hb : b < dirSize d)
    {l : Nat} (hl : l + 1 ≤ d.globalDepth) :
    getSplitImageIndex d b % 2 ^ l = b % 2 ^ l := by
  have hone : ¬ dirSize d = 1 := by
    rw [dirSize]
    have : (1 : Nat) < 2 ^ d.globalDepth :=
      Nat.one_lt_two_pow_iff.mpr (by omega)
    omega
  have hfac : 2 ^ (d.globalDepth - 1) = 2 ^ l * 2 ^ (d.globalDepth - 1 - l) :=
    two_pow_factor (by omega)
  rw [getSplitImageIndex, if_neg hone]
  split
  · rw [hfac, Nat.add_mul_mod_self_left]
  · rename_i hge
    have hle : 2 ^ (d.globalDepth - 1) ≤ b := Nat.le_of_not_lt hge
    conv_rhs => rw [show b = b - 2 ^ (d.globalDepth - 1) + 2 ^ (d.globalDepth - 1)
      from (Nat.sub_add_cancel hle).symm]
    rw [hfac, Nat.add_mul_mod_self_left]

theorem splitImage_ne {d : DirPage} {b : Nat} (hg : 1 ≤ d.globalDepth) :
    getSplitImageIndex d b ≠ b := by
  have hone : ¬ dirSize d = 1 := by
    rw [dirSize]
    have : (1 : Nat) < 2 ^ d.globalDepth := Nat.one_lt_two_pow_iff.mpr (by omega)
    omega
  have hpos : 0 < 2 ^ (d.globalDepth - 1) := Nat.pos_pow_of_pos _ (by omega)
  rw [getSplitImageIndex, if_neg hone]
  split
  · omega
  · rename_i hge
    have := Nat.le_of_not_lt hge
    omega

/-- A directory at global depth 0 with local depth 0 at slot 0 satisfies the
invariant, whatever its single page id is. -/
theorem dirInv_trivial {d : DirPage} (hg : d.globalDepth = 0)
    (hld : d.localDepths 0 = 0) (hmd : d.maxDepth ≤ htableDirectoryMaxDepth) :
    DirInv d := by
  have hsz : dirSize d = 1 := by simp [dirSize, hg]
  refine ⟨?_, ?_, ?_, ?_, hmd⟩
  · intro i hi j hj _
    rw [hsz] at hi hj
    have : i = 0 := by omega
    have : j = 0 := by omega
    subst_vars
    exact ⟨rfl, rfl⟩
  · intro _ _ _
    exact hg
  · left
    intro i hi
    rw [hsz] at hi
    have : i = 0 := by omega
    subst this
    rw [hld, hg]
  · omega

theorem fetchDir_updDir (s : HTState) (p : Int) (d : DirPage) (q : Int) :
    fetchDir (updDir s p d) q = if q = p then d else fetchDir s q := by
  rw [fetchDir, updDir]
  by_cases h : q = p <;> simp [h, fetchDir]

theorem htInv_mk (hmd : Nat) : HTInv (mkHashTable hmd) := by
  refine ⟨by norm_num [mkHashTable], fun pid => dirInv_trivial rfl rfl ?_⟩
  show (0 : Nat) ≤ htableDirectoryMaxDepth
  norm_num [htableDirectoryMaxDepth]

theorem incr_fields {d : DirPage} (hlt : d.globalDepth < d.maxDepth) :
    (incrGlobalDepth d).globalDepth = d.globalDepth + 1 ∧
    (incrGlobalDepth d).maxDepth = d.maxDepth ∧
    (∀ i, (incrGlobalDepth d).localDepths i =
      if 2 ^ d.globalDepth ≤ i ∧ i < 2 ^ (d.globalDepth + 1) then
        d.localDepths (i - 2 ^ d.globalDepth)
      else d.localDepths i) ∧
    (∀ i, (incrGlobalDepth d).bucketPageIds i =
      if 2 ^ d.globalDepth ≤ i ∧ i < 2 ^ (d.globalDepth + 1) then
        d.bucketPageIds (i - 2 ^ d.globalDepth)
      else d.bucketPageIds i) := by
  rw [incrGlobalDepth, if_neg (Nat.not_le.mpr hlt)]
  exact ⟨rfl, rfl, fun i => rfl, fun i => rfl⟩

/-- Doubling the directory preserves the invariant: every new slot copies its
low-half base slot, and congruences at depths at most the old global depth
pass between a slot and its base. -/
theorem incr_dirInv {d : DirPage} (hInv : DirInv d)
    (hBr : ∀ i, i < dirSize d → d.localDepths i ≤ d.globalDepth)
    (hNoInv : ∀ i, i < dirSize d → d.bucketPageIds i ≠ -1)
    (hlt : d.globalDepth < d.maxDepth) :
    DirInv (incrGlobalDepth d) ∧
    (∀ i, i < dirSize (incrGlobalDepth d) →
      (incrGlobalDepth d).localDepths i ≤ d.globalDepth) ∧
    (∀ i, i < dirSize (incrGlobalDepth d) →
      (incrGlobalDepth d).bucketPageIds i ≠ -1) := by
  obtain ⟨hg1, hm1, hld1, hpid1⟩ := incr_fields hlt
  have hsz1 : dirSize (incrGlobalDepth d) = 2 ^ (d.globalDepth + 1) := by
    rw [dirSize, hg1]
  have hdub : 2 ^ (d.globalDepth + 1) = 2 * 2 ^ d.globalDepth := by
    rw [pow_succ]
    ring
  have base : ∀ i, i < 2 ^ (d.globalDepth + 1) → ∃ i0, i0 < dirSize d ∧
      (incrGlobalDepth d).localDepths i = d.localDepths i0 ∧
      (incrGlobalDepth d).bucketPageIds i = d.bucketPageIds i0 ∧
      ∀ l, l ≤ d.globalDepth → i % 2 ^ l = i0 % 2 ^ l := by
    intro i hi
    by_cases hi2 : i < 2 ^ d.globalDepth
    · refine ⟨i, hi2, ?_, ?_, fun l _ => rfl⟩
      · rw [hld1, if_neg (fun hc => absurd hi2 (Nat.not_lt.mpr hc.1))]
      · rw [hpid1, if_neg (fun hc => absurd hi2 (Nat.not_lt.mpr hc.1))]
    · have hge : 2 ^ d.globalDepth ≤ i := Nat.le_of_not_lt hi2
      refine ⟨i - 2 ^ d.globalDepth, by rw [dirSize]; omega, ?_, ?_, ?_⟩
      · rw [hld1, if_pos ⟨hge, hi⟩]
      · rw [hpid1, if_pos ⟨hge, hi⟩]
      · intro l hl
        conv_lhs => rw [show i = i - 2 ^ d.globalDepth + 2 ^ d.globalDepth
          from (Nat.sub_add_cancel hge).symm]
        rw [two_pow_factor hl, Nat.add_mul_mod_self_left]
  obtain ⟨hClass, hInvd, _, hmd1, hmd9⟩ := hInv
  refine ⟨⟨?_, ?_, ?_, ?_, ?_⟩, ?_, ?_⟩
  · intro i hi j hj hmod
    rw [hsz1] at hi hj
    obtain ⟨i0, hi0, hldi, hpidi, hmodi⟩ := base i hi
    obtain ⟨j0, hj0, hldj, hpidj, hmodj⟩ := base j hj
    have hdd : d.localDepths i0 ≤ d.globalDepth := hBr i0 hi0
    rw [hldi] at hmod
    have hmod0 : i0 % 2 ^ d.localDepths i0 = j0 % 2 ^ d.localDepths i0 := by
      rw [← hmodi _ hdd, ← hmodj _ hdd]
      exact hmod
    obtain ⟨hpid0, hld0⟩ := hClass i0 hi0 j0 hj0 hmod0
    constructor
    · rw [hpidi, hpidj, hpid0]
    · rw [hldi, hldj, hld0]
  · intro i hi hbad
    rw [hsz1] at hi
    obtain ⟨i0, hi0, _, hpidi, _⟩ := base i hi
    rw [hpidi] at hbad
    exact absurd hbad (hNoInv i0 hi0)
  · left
    intro i hi
    rw [hsz1] at hi
    obtain ⟨i0, hi0, hldi, _, _⟩ := base i hi
    rw [hldi, hg1]
    exact Nat.le_succ_of_le (hBr i0 hi0)
  · rw [hg1, hm1]
    omega
  · rw [hm1]
    exact hmd9
  · intro i hi
    rw [hsz1] at hi
    obtain ⟨i0, hi0, hldi, _, _⟩ := base i hi
    rw [hldi]
    exact hBr i0 hi0
  · intro i hi
    rw [hsz1] at hi
    obtain ⟨i0, hi0, _, hpidi, _⟩ := base i hi
    rw [hpidi]
    exact hNoInv i0 hi0

theorem splitImage_updLd (e : DirPage) (b2 nl m b : Nat) :
    getSplitImageIndex (updateLocalDepthMapping e b2 nl m) b =
      getSplitImageIndex e b := rfl

theorem splitDirUpdate_fields (e : DirPage) (bIdx l0 : Nat) (nbPid : Int)
    (hl9 : l0 + 1 < 256) :
    (splitDirUpdate e bIdx l0 nbPid).globalDepth = e.globalDepth ∧
    (splitDirUpdate e bIdx l0 nbPid).maxDepth = e.maxDepth ∧
    (∀ i, (splitDirUpdate e bIdx l0 nbPid).localDepths i =
      if i < dirSize e ∧ i % 2 ^ l0 = bIdx % 2 ^ l0 then l0 + 1
      else e.localDepths i) ∧
    (∀ i, (splitDirUpdate e bIdx l0 nbPid).bucketPageIds i =
      if i < dirSize e ∧
          i % 2 ^ (l0 + 1) = getSplitImageIndex e bIdx % 2 ^ (l0 + 1) then
        nbPid
      else e.bucketPageIds i) := by
  refine ⟨rfl, rfl, ?_, ?_⟩
  · intro i
    simp only [splitDirUpdate, splitImage_updLd, updatePageIdMapping,
      updateLocalDepthMapping, dirSize, Nat.and_pow_two_sub_one_eq_mod,
      Nat.mod_eq_of_lt hl9]
  · intro i
    simp only [splitDirUpdate]
    rw [splitImage_updLd]
    simp only [updatePageIdMapping, updateLocalDepthMapping, dirSize,
      Nat.and_pow_two_sub_one_eq_mod]

/-- One split-loop iteration preserves the directory invariant: the slots
congruent to the full bucket's slot at its old depth move to the new depth,
and the new bucket's page id lands exactly on the refined class of the split
image. -/
theorem splitDirUpdate_dirInv {e : DirPage} {bIdx l0 : Nat} {nbPid : Int}
    (hClass : ClassInv e)
    (hInvd : ∀ i, i < dirSize e → e.bucketPageIds i = -1 → e.globalDepth = 0)
    (hBr : ∀ i, i < dirSize e → e.localDepths i ≤ e.globalDepth)
    (hgm : e.globalDepth ≤ e.maxDepth)
    (hm9 : e.maxDepth ≤ htableDirectoryMaxDepth)
    (hb : bIdx < dirSize e) (hl0 : e.localDepths bIdx = l0)
    (hlt : l0 < e.globalDepth) (hnb : nbPid ≠ -1) :
    DirInv (splitDirUpdate e bIdx l0 nbPid) ∧
    (splitDirUpdate e bIdx l0 nbPid).globalDepth = e.globalDepth ∧
    ((splitDirUpdate e bIdx l0 nbPid).bucketPageIds bIdx = nbPid ∨
      (splitDirUpdate e bIdx l0 nbPid).bucketPageIds bIdx =
        e.bucketPageIds bIdx) := by
  have hl9 : l0 + 1 < 256 := by
    have h9 := hm9
    rw [htableDirectoryMaxDepth] at h9
    omega
  obtain ⟨hDg, hDm, hDld, hDpid⟩ := splitDirUpdate_fields e bIdx l0 nbPid hl9
  have hb'lt : getSplitImageIndex e bIdx < dirSize e := splitImage_lt hb
  have hb'mod : getSplitImageIndex e bIdx % 2 ^ l0 = bIdx % 2 ^ l0 :=
    splitImage_mod hb (by omega)
  have hszD : dirSize (splitDirUpdate e bIdx l0 nbPid) = dirSize e := by
    rw [dirSize, hDg, dirSize]
  have hCI : ClassInv (splitDirUpdate e bIdx l0 nbPid) := by
    intro i hi j hj hmod
    rw [hszD] at hi hj
    by_cases hU : i % 2 ^ l0 = bIdx % 2 ^ l0
    · have hldi : (splitDirUpdate e bIdx l0 nbPid).localDepths i = l0 + 1 := by
        rw [hDld, if_pos ⟨hi, hU⟩]
      rw [hldi] at hmod
      have hUj : j % 2 ^ l0 = bIdx % 2 ^ l0 := by
        rw [← mod_pow_mono (Nat.le_succ l0) hmod]
        exact hU
      have hldj : (splitDirUpdate e bIdx l0 nbPid).localDepths j = l0 + 1 := by
        rw [hDld, if_pos ⟨hj, hUj⟩]
      refine ⟨?_, by rw [hldi, hldj]⟩
      by_cases hCi : i % 2 ^ (l0 + 1) =
          getSplitImageIndex e bIdx % 2 ^ (l0 + 1)
      · have hCj : j % 2 ^ (l0 + 1) =
            getSplitImageIndex e bIdx % 2 ^ (l0 + 1) := by
          rw [← hmod]
          exact hCi
        rw [hDpid, hDpid, if_pos ⟨hi, hCi⟩, if_pos ⟨hj, hCj⟩]
      · have hCj : ¬ j % 2 ^ (l0 + 1) =
            getSplitImageIndex e bIdx % 2 ^ (l0 + 1) := by
          rw [← hmod]
          exact hCi
        rw [hDpid, hDpid, if_neg (fun hc => hCi hc.2),
          if_neg (fun hc => hCj hc.2)]
        have h1 := hClass bIdx hb i hi (by rw [hl0]; exact hU.symm)
        have h2 := hClass bIdx hb j hj (by rw [hl0]; exact hUj.symm)
        rw [← h1.1, ← h2.1]
    · have hldi : (splitDirUpdate e bIdx l0 nbPid).localDepths i =
          e.localDepths i := by
        rw [hDld, if_neg (fun hc => hU hc.2)]
      rw [hldi] at hmod
      have hUj : ¬ j % 2 ^ l0 = bIdx % 2 ^ l0 := by
        intro hUj
        have hbj := hClass bIdx hb j hj (by rw [hl0]; exact hUj.symm)
        have hij := hClass i hi j hj hmod
        have hldj0 : e.localDepths j = l0 := by rw [← hbj.2, hl0]
        have hldi0 : e.localDepths i = l0 := by rw [hij.2, hldj0]
        apply hU
        rw [hldi0] at hmod
        rw [hmod]
        exact hUj
      have hldj : (splitDirUpdate e bIdx l0 nbPid).localDepths j =
          e.localDepths j := by
        rw [hDld, if_neg (fun hc => hUj hc.2)]
      have hold := hClass i hi j hj hmod
      refine ⟨?_, by rw [hldi, hldj]; exact hold.2⟩
      have hCi : ¬ i % 2 ^ (l0 + 1) =
          getSplitImageIndex e bIdx % 2 ^ (l0 + 1) := by
        intro hc
        apply hU
        rw [mod_pow_mono (Nat.le_succ l0) hc]
        exact hb'mod
      have hCj : ¬ j % 2 ^ (l0 + 1) =
          getSplitImageIndex e bIdx % 2 ^ (l0 + 1) := by
        intro hc
        apply hUj
        rw [mod_pow_mono (Nat.le_succ l0) hc]
        exact hb'mod
      rw [hDpid, hDpid, if_neg (fun hc => hCi hc.2),
        if_neg (fun hc => hCj hc.2)]
      exact hold.1
  refine ⟨⟨hCI, ?_, ?_, ?_, ?_⟩, hDg, ?_⟩
  · intro i hi hbad
    rw [hszD] at hi
    rw [hDpid] at hbad
    rw [hDg]
    by_cases hc : i < dirSize e ∧
        i % 2 ^ (l0 + 1) = getSplitImageIndex e bIdx % 2 ^ (l0 + 1)
    · rw [if_pos hc] at hbad
      exact absurd hbad hnb
    · rw [if_neg hc] at hbad
      have := hInvd i hi hbad
      omega
  · left
    intro i hi
    rw [hszD] at hi
    rw [hDld, hDg]
    by_cases hc : i < dirSize e ∧ i % 2 ^ l0 = bIdx % 2 ^ l0
    · rw [if_pos hc]
      omega
    · rw [if_neg hc]
      exact hBr i hi
  · rw [hDg, hDm]
    exact hgm
  · rw [hDm]
    exact hm9
  · rw [hDpid]
    by_cases hc : bIdx < dirSize e ∧
        bIdx % 2 ^ (l0 + 1) = getSplitImageIndex e bIdx % 2 ^ (l0 + 1)
    · rw [if_pos hc]
      exact Or.inl rfl
    · rw [if_neg hc]
      exact Or.inr rfl

theorem mask_div_two (l : Nat) : (2 ^ l - 1) / 2 = 2 ^ (l - 1) - 1 := by
  cases l with
  | zero => rfl
  | succ n =>
    rw [Nat.succ_sub_one, pow_succ]
    have h1 : 1 ≤ 2 ^ n := Nat.one_le_two_pow
    omega

theorem mergeDirUpdate_fields (d : DirPage) (bIdx : Nat) :
    (mergeDirUpdate d bIdx).globalDepth = d.globalDepth ∧
    (mergeDirUpdate d bIdx).maxDepth = d.maxDepth ∧
    (∀ i, (mergeDirUpdate d bIdx).localDepths i =
      if i < dirSize d ∧ i % 2 ^ (d.localDepths bIdx - 1) =
          getSplitImageIndex d bIdx % 2 ^ (d.localDepths bIdx - 1) then
        (d.localDepths bIdx + 255) % 256
      else d.localDepths i) ∧
    (∀ i, (mergeDirUpdate d bIdx).bucketPageIds i =
      if i < dirSize d ∧ i % 2 ^ (d.localDepths bIdx - 1) =
          getSplitImageIndex d bIdx % 2 ^ (d.localDepths bIdx - 1) then
        d.bucketPageIds (getSplitImageIndex d bIdx)
      else d.bucketPageIds i) := by
  refine ⟨rfl, rfl, ?_, ?_⟩
  · intro i
    simp only [mergeDirUpdate, updatePageIdMapping, updateLocalDepthMapping,
      dirSize, mask_div_two, Nat.and_pow_two_sub_one_eq_mod,
      Nat.mod_mod_of_dvd _ dvd_rfl]
  · intro i
    simp only [mergeDirUpdate, updatePageIdMapping, updateLocalDepthMapping,
      dirSize, mask_div_two, Nat.and_pow_two_sub_one_eq_mod]

/-- In a directory satisfying the invariant with depths bounded by the global
depth, the split image of a slot has the same local depth as the slot. -/
theorem splitImage_localDepth {d : DirPage} {bIdx : Nat}
    (hClass : ClassInv d)
    (hBr : ∀ i, i < dirSize d → d.localDepths i ≤ d.globalDepth)
    (hb : bIdx < dirSize d) (hg : 1 ≤ d.globalDepth) :
    d.localDepths (getSplitImageIndex d bIdx) = d.localDepths bIdx := by
  have hm'lt : getSplitImageIndex d bIdx < dirSize d := splitImage_lt hb
  by_cases hlg : d.localDepths bIdx = d.globalDepth
  · by_cases hdmg : d.localDepths (getSplitImageIndex d bIdx) = d.globalDepth
    · rw [hdmg, hlg]
    · have hdm := hBr _ hm'lt
      have hdm1 : d.localDepths (getSplitImageIndex d bIdx) + 1 ≤
          d.globalDepth := by omega
      have hmm := splitImage_mod hb hdm1
      exact (hClass _ hm'lt bIdx hb hmm).2
  · have hllt : d.localDepths bIdx + 1 ≤ d.globalDepth := by
      have := hBr bIdx hb
      omega
    have hmm := splitImage_mod hb hllt
    exact ((hClass bIdx hb _ hm'lt hmm.symm).2).symm

/-- The merge path's two directory rewrites preserve the invariant.  When the
emptied slot's local depth is zero, the `uint8_t` underflow stores 255 in
every slot, which makes all congruence classes singletons; otherwise the
half-depth class of the split image is rewritten uniformly. -/
theorem mergeDirUpdate_dirInv {d : DirPage} {bIdx : Nat}
    (hInv : DirInv d)
    (hBr : ∀ i, i < dirSize d → d.localDepths i ≤ d.globalDepth)
    (hb : bIdx < dirSize d) (hg : 1 ≤ d.globalDepth) :
    DirInv (mergeDirUpdate d bIdx) := by
  obtain ⟨hClass, hInvd, _, hgm, hm9⟩ := hInv
  obtain ⟨hDg, hDm, hDld, hDpid⟩ := mergeDirUpdate_fields d bIdx
  have hm'lt : getSplitImageIndex d bIdx < dirSize d := splitImage_lt hb
  have hl9 : d.localDepths bIdx ≤ 9 := by
    have h1 := hBr bIdx hb
    have h2 := hm9
    rw [htableDirectoryMaxDepth] at h2
    omega
  have hg9 : d.globalDepth ≤ 9 := by
    have h2 := hm9
    rw [htableDirectoryMaxDepth] at h2
    omega
  have hszD : dirSize (mergeDirUpdate d bIdx) = dirSize d := by
    rw [dirSize, hDg, dirSize]
  by_cases hl0 : d.localDepths bIdx = 0
  · -- underflow: every slot gets local depth 255 and the image's page id
    have hldval : (d.localDepths bIdx + 255) % 256 = 255 := by
      rw [hl0]
    have hcond : ∀ i : Nat, i % 2 ^ (d.localDepths bIdx - 1) =
        getSplitImageIndex d bIdx % 2 ^ (d.localDepths bIdx - 1) := by
      intro i
      rw [hl0]
      simp [Nat.mod_one]
    refine ⟨?_, ?_, ?_, ?_, ?_⟩
    · intro i hi j hj hmod
      rw [hszD] at hi hj
      rw [hDld, if_pos ⟨hi, hcond i⟩, hldval] at hmod
      have hij : i = j := by
        refine mod_pow_inj ?_ ?_ (by omega : d.globalDepth ≤ 255) hmod
        · rw [dirSize] at hi
          exact hi
        · rw [dirSize] at hj
          exact hj
      subst hij
      exact ⟨rfl, rfl⟩
    · intro i hi hbad
      rw [hszD] at hi
      rw [hDpid, if_pos ⟨hi, hcond i⟩] at hbad
      have := hInvd _ hm'lt hbad
      rw [hDg]
      omega
    · right
      refine ⟨by rw [hDg]; exact hg, ?_⟩
      intro i hi
      rw [hszD] at hi
      rw [hDld, if_pos ⟨hi, hcond i⟩, hldval]
    · rw [hDg, hDm]
      exact hgm
    · rw [hDm]
      exact hm9
  · -- the emptied slot's local depth is at least one
    have hl1 : 1 ≤ d.localDepths bIdx := by omega
    have hldm' : d.localDepths (getSplitImageIndex d bIdx) =
        d.localDepths bIdx := splitImage_localDepth hClass hBr hb hg
    have hldval : (d.localDepths bIdx + 255) % 256 =
        d.localDepths bIdx - 1 := by omega
    refine ⟨?_, ?_, ?_, ?_, ?_⟩
    · intro i hi j hj hmod
      rw [hszD] at hi hj
      by_cases hU : i % 2 ^ (d.localDepths bIdx - 1) =
          getSplitImageIndex d bIdx % 2 ^ (d.localDepths bIdx - 1)
      · rw [hDld, if_pos ⟨hi, hU⟩, hldval] at hmod
        have hUj : j % 2 ^ (d.localDepths bIdx - 1) =
            getSplitImageIndex d bIdx % 2 ^ (d.localDepths bIdx - 1) := by
          rw [← hmod]
          exact hU
        constructor
        · rw [hDpid, hDpid, if_pos ⟨hi, hU⟩, if_pos ⟨hj, hUj⟩]
        · rw [hDld, hDld, if_pos ⟨hi, hU⟩, if_pos ⟨hj, hUj⟩]
      · rw [hDld, if_neg (fun hc => hU hc.2)] at hmod
        have hUj : ¬ j % 2 ^ (d.localDepths bIdx - 1) =
            getSplitImageIndex d bIdx % 2 ^ (d.localDepths bIdx - 1) := by
          intro hUj
          by_cases hddl : d.localDepths bIdx - 1 ≤ d.localDepths i
          · apply hU
            rw [mod_pow_mono hddl hmod]
            exact hUj
          · have hj' : j % 2 ^ d.localDepths i =
                getSplitImageIndex d bIdx % 2 ^ d.localDepths i :=
              mod_pow_mono (by omega) hUj
            have hi' : i % 2 ^ d.localDepths i =
                getSplitImageIndex d bIdx % 2 ^ d.localDepths i := by
              rw [hmod]
              exact hj'
            have hcl := hClass i hi _ hm'lt hi'
            rw [hldm'] at hcl
            omega
        have hold := hClass i hi j hj hmod
        constructor
        · rw [hDpid, hDpid, if_neg (fun hc => hU hc.2),
            if_neg (fun hc => hUj hc.2)]
          exact hold.1
        · rw [hDld, hDld, if_neg (fun hc => hU hc.2),
            if_neg (fun hc => hUj hc.2)]
          exact hold.2
    · intro i hi hbad
      rw [hszD] at hi
      rw [hDpid] at hbad
      rw [hDg]
      by_cases hc : i < dirSize d ∧ i % 2 ^ (d.localDepths bIdx - 1) =
          getSplitImageIndex d bIdx % 2 ^ (d.localDepths bIdx - 1)
      · rw [if_pos hc] at hbad
        have := hInvd _ hm'lt hbad
        omega
      · rw [if_neg hc] at hbad
        exact hInvd i hi hbad
    · left
      intro i hi
      rw [hszD] at hi
      rw [hDld, hDg]
      by_cases hc : i < dirSize d ∧ i % 2 ^ (d.localDepths bIdx - 1) =
          getSplitImageIndex d bIdx % 2 ^ (d.localDepths bIdx - 1)
      · rw [if_pos hc, hldval]
        have := hBr bIdx hb
        omega
      · rw [if_neg hc]
        exact hBr i hi
    · rw [hDg, hDm]
      exact hgm
    · rw [hDm]
      exact hm9

theorem canShrink_all {d : DirPage} (hcs : canShrink d = true) :
    ∀ i, i < dirSize d → d.localDepths i < d.globalDepth := by
  intro i hi
  have h := List.all_eq_true.mp hcs i (List.mem_range.mpr hi)
  simpa using h

/-- Halving the directory when every local depth is strictly below the
global depth preserves the invariant. -/
theorem decr_dirInv {d : DirPage} (hInv : DirInv d)
    (hcs : canShrink d = true) : DirInv (decrGlobalDepth d) := by
  have hall := canShrink_all hcs
  obtain ⟨hClass, hInvd, _, hgm, hm9⟩ := hInv
  have hg : 1 ≤ d.globalDepth := by
    have hpos : 0 < dirSize d := by
      rw [dirSize]
      exact pow_pos (by omega) _
    have h0 := hall 0 hpos
    omega
  rw [decrGlobalDepth, if_neg (by omega)]
  have hmono : 2 ^ (d.globalDepth - 1) ≤ 2 ^ d.globalDepth :=
    Nat.pow_le_pow_right (by omega) (by omega)
  refine ⟨?_, ?_, ?_, ?_, ?_⟩
  · intro i hi j hj hmod
    rw [dirSize] at hi hj
    dsimp only at hi hj hmod ⊢
    have hi1 : ¬ (2 ^ (d.globalDepth - 1) ≤ i ∧ i < 2 ^ d.globalDepth) :=
      fun hc => absurd hi (Nat.not_lt.mpr hc.1)
    have hj1 : ¬ (2 ^ (d.globalDepth - 1) ≤ j ∧ j < 2 ^ d.globalDepth) :=
      fun hc => absurd hj (Nat.not_lt.mpr hc.1)
    rw [if_neg hi1] at hmod
    have hi' : i < dirSize d := by
      rw [dirSize]
      omega
    have hj' : j < dirSize d := by
      rw [dirSize]
      omega
    have hold := hClass i hi' j hj' hmod
    rw [if_neg hi1, if_neg hj1, if_neg hi1, if_neg hj1]
    exact hold
  · intro i hi hbad
    rw [dirSize] at hi
    dsimp only at hi hbad ⊢
    have hi1 : ¬ (2 ^ (d.globalDepth - 1) ≤ i ∧ i < 2 ^ d.globalDepth) :=
      fun hc => absurd hi (Nat.not_lt.mpr hc.1)
    rw [if_neg hi1] at hbad
    have hi' : i < dirSize d := by
      rw [dirSize]
      omega
    have := hInvd i hi' hbad
    omega
  · left
    intro i hi
    rw [dirSize] at hi
    dsimp only at hi ⊢
    have hi1 : ¬ (2 ^ (d.globalDepth - 1) ≤ i ∧ i < 2 ^ d.globalDepth) :=
      fun hc => absurd hi (Nat.not_lt.mpr hc.1)
    rw [if_neg hi1]
    have hi' : i < dirSize d := by
      rw [dirSize]
      omega
    have := hall i hi'
    omega
  · dsimp only
    omega
  · dsimp only
    exact hm9

/-- The split loop preserves the table invariant, keeps the loop's slot in
range and keeps its page id valid; it can only complete on states whose
directory writes went through `splitDirUpdate` and `incrGlobalDepth`. -/
theorem splitLoop_htInv (cfg : HTConfig) :
    ∀ (fuel : Nat) (s : HTState) (dpid : Int) (bIdx : Nat) (bPid : Int)
      (r : Bool) (s' : HTState), HTInv s →
      bIdx < dirSize (fetchDir s dpid) →
      (fetchDir s dpid).bucketPageIds bIdx ≠ -1 →
      splitLoop cfg fuel s dpid bIdx bPid = Except.ok (r, s') → HTInv s' := by
  intro fuel
  induction fuel with
  | zero =>
    intro s dpid bIdx bPid r s' _ _ _ hstep
    simp [splitLoop] at hstep
  | succ f ih =>
    intro s dpid bIdx bPid r s' hInv hbLt hbPid hstep
    simp only [splitLoop, allocPage] at hstep
    by_cases hfull : bucketIsFull (fetchBucket s bPid) = true
    case neg =>
      rw [if_pos hfull] at hstep
      simp only [Except.ok.injEq, Prod.mk.injEq] at hstep
      obtain ⟨_, h2⟩ := hstep
      subst h2
      exact hInv
    case pos =>
      rw [if_neg (not_not_intro hfull)] at hstep
      by_cases hcap : (fetchDir s dpid).localDepths bIdx =
          (fetchDir s dpid).globalDepth ∧
          dirSize (fetchDir s dpid) = dirMaxSize (fetchDir s dpid)
      · rw [if_pos hcap] at hstep
        simp only [Except.ok.injEq, Prod.mk.injEq] at hstep
        obtain ⟨_, h2⟩ := hstep
        subst h2
        exact hInv
      · rw [if_neg hcap] at hstep
        obtain ⟨hnn, hdirInv⟩ := hInv
        obtain ⟨hClass, hInvd, hDep, hgm, hm9⟩ := hdirInv dpid
        have hm9' : (fetchDir s dpid).maxDepth ≤ 9 := by
          have := hm9
          rw [htableDirectoryMaxDepth] at this
          exact this
        have hnb : s.nextPageId ≠ -1 := by omega
        rcases hDep with hBr | ⟨hgone, h255⟩
        · -- local depths bounded by the global depth
          have hl0le := hBr bIdx hbLt
          have hl09 : (fetchDir s dpid).localDepths bIdx ≤ 9 := by omega
          by_cases hdub : (fetchDir s dpid).localDepths bIdx =
              (fetchDir s dpid).globalDepth
          · -- the directory doubles first
            rw [if_pos hdub] at hstep
            have hszne : ¬ dirSize (fetchDir s dpid) =
                dirMaxSize (fetchDir s dpid) := fun hc => hcap ⟨hdub, hc⟩
            have hgmlt : (fetchDir s dpid).globalDepth <
                (fetchDir s dpid).maxDepth := by
              rcases Nat.lt_or_ge (fetchDir s dpid).globalDepth
                  (fetchDir s dpid).maxDepth with h | h
              · exact h
              · exact absurd (by rw [dirSize, dirMaxSize,
                  le_antisymm hgm h]) hszne
            have hNoInv : ∀ i, i < dirSize (fetchDir s dpid) →
                (fetchDir s dpid).bucketPageIds i ≠ -1 := by
              intro i hi
              by_cases hgz : (fetchDir s dpid).globalDepth = 0
              · have hsz1 : dirSize (fetchDir s dpid) = 1 := by
                  rw [dirSize, hgz, pow_zero]
                have hi0 : i = 0 := by
                  rw [hsz1] at hi
                  omega
                have hb0 : bIdx = 0 := by
                  rw [hsz1] at hbLt
                  omega
                rw [hi0, ← hb0]
                exact hbPid
              · intro hbad
                exact hgz (hInvd i hi hbad)
            obtain ⟨hD1, hBr1, hNoInv1⟩ :=
              incr_dirInv ⟨hClass, hInvd, Or.inl hBr, hgm, hm9⟩ hBr hNoInv hgmlt
            obtain ⟨hC1, hI1, _, hgm1, hm91⟩ := hD1
            obtain ⟨hg1, hm1, hld1, _⟩ := incr_fields hgmlt
            have hbLt2 : bIdx < 2 ^ (fetchDir s dpid).globalDepth := by
              rw [dirSize] at hbLt
              exact hbLt
            have hld1b : (incrGlobalDepth (fetchDir s dpid)).localDepths bIdx =
                (fetchDir s dpid).localDepths bIdx := by
              rw [hld1, if_neg (fun hc => absurd hbLt2 (Nat.not_lt.mpr hc.1))]
            have hmaskok : getLocalDepthMaskE
                (incrGlobalDepth (fetchDir s dpid)) bIdx =
                Except.ok (2 ^ (fetchDir s dpid).localDepths bIdx - 1) := by
              rw [getLocalDepthMaskE, hld1b, if_pos (by omega)]
            rw [hmaskok] at hstep
            dsimp only at hstep
            rw [Nat.mod_eq_of_lt
              (show (fetchDir s dpid).localDepths bIdx + 1 < 256 by omega)]
              at hstep
            have h1p : 1 ≤ 2 ^ (fetchDir s dpid).localDepths bIdx :=
              Nat.one_le_two_pow
            rw [show (fetchDir s dpid).localDepths bIdx + 1 - 1 =
              (fetchDir s dpid).localDepths bIdx from rfl] at hstep
            rw [show 2 ^ (fetchDir s dpid).localDepths bIdx - 1 +
                2 ^ (fetchDir s dpid).localDepths bIdx =
                2 ^ ((fetchDir s dpid).localDepths bIdx + 1) - 1 by
              rw [pow_succ]
              omega] at hstep
            have hb1 : bIdx < dirSize (incrGlobalDepth (fetchDir s dpid)) := by
              rw [dirSize, hg1]
              have := Nat.pow_le_pow_right (show 0 < 2 by omega)
                (Nat.le_succ (fetchDir s dpid).globalDepth)
              omega
            have hlt1 : (fetchDir s dpid).localDepths bIdx <
                (incrGlobalDepth (fetchDir s dpid)).globalDepth := by
              rw [hg1]
              omega
            have hBr1' : ∀ i, i < dirSize (incrGlobalDepth (fetchDir s dpid)) →
                (incrGlobalDepth (fetchDir s dpid)).localDepths i ≤
                  (incrGlobalDepth (fetchDir s dpid)).globalDepth := by
              intro i hi
              rw [hg1]
              exact Nat.le_succ_of_le (hBr1 i hi)
            have hsplit := splitDirUpdate_dirInv hC1 hI1 hBr1' hgm1 hm91 hb1
              hld1b hlt1 hnb
            refine ih _ dpid bIdx bPid r s' ⟨?_, ?_⟩ ?_ ?_ hstep
            · show (0 : Int) ≤ s.nextPageId + 1
              omega
            · intro q
              rw [fetchDir_updDir]
              by_cases hq : q = dpid
              · rw [if_pos hq]
                exact hsplit.1
              · rw [if_neg hq]
                exact hdirInv q
            · rw [fetchDir_updDir, if_pos rfl]
              show bIdx < dirSize (splitDirUpdate
                (incrGlobalDepth (fetchDir s dpid)) bIdx
                ((fetchDir s dpid).localDepths bIdx) s.nextPageId)
              rw [dirSize, hsplit.2.1, hg1]
              have := Nat.pow_le_pow_right (show 0 < 2 by omega)
                (Nat.le_succ (fetchDir s dpid).globalDepth)
              omega
            · rw [fetchDir_updDir, if_pos rfl]
              show (splitDirUpdate (incrGlobalDepth (fetchDir s dpid)) bIdx
                ((fetchDir s dpid).localDepths bIdx)
                s.nextPageId).bucketPageIds bIdx ≠ -1
              rcases hsplit.2.2 with h | h
              · rw [h]
                exact hnb
              · rw [h]
                exact hNoInv1 bIdx hb1
          · -- no doubling
            rw [if_neg hdub] at hstep
            have hlt0 : (fetchDir s dpid).localDepths bIdx <
                (fetchDir s dpid).globalDepth := by omega
            have hmaskok : getLocalDepthMaskE (fetchDir s dpid) bIdx =
                Except.ok (2 ^ (fetchDir s dpid).localDepths bIdx - 1) := by
              rw [getLocalDepthMaskE, if_pos (by omega)]
            rw [hmaskok] at hstep
            dsimp only at hstep
            rw [Nat.mod_eq_of_lt
              (show (fetchDir s dpid).localDepths bIdx + 1 < 256 by omega)]
              at hstep
            have h1p : 1 ≤ 2 ^ (fetchDir s dpid).localDepths bIdx :=
              Nat.one_le_two_pow
            rw [show (fetchDir s dpid).localDepths bIdx + 1 - 1 =
              (fetchDir s dpid).localDepths bIdx from rfl] at hstep
            rw [show 2 ^ (fetchDir s dpid).localDepths bIdx - 1 +
                2 ^ (fetchDir s dpid).localDepths bIdx =
                2 ^ ((fetchDir s dpid).localDepths bIdx + 1) - 1 by
              rw [pow_succ]
              omega] at hstep
            have hsplit := splitDirUpdate_dirInv hClass hInvd hBr hgm hm9
              hbLt rfl hlt0 hnb
            refine ih _ dpid bIdx bPid r s' ⟨?_, ?_⟩ ?_ ?_ hstep
            · show (0 : Int) ≤ s.nextPageId + 1
              omega
            · intro q
              rw [fetchDir_updDir]
              by_cases hq : q = dpid
              · rw [if_pos hq]
                exact hsplit.1
              · rw [if_neg hq]
                exact hdirInv q
            · rw [fetchDir_updDir, if_pos rfl]
              show bIdx < dirSize (splitDirUpdate (fetchDir s dpid) bIdx
                ((fetchDir s dpid).localDepths bIdx) s.nextPageId)
              rw [dirSize, hsplit.2.1]
              rw [dirSize] at hbLt
              exact hbLt
            · rw [fetchDir_updDir, if_pos rfl]
              show (splitDirUpdate (fetchDir s dpid) bIdx
                ((fetchDir s dpid).localDepths bIdx)
                s.nextPageId).bucketPageIds bIdx ≠ -1
              rcases hsplit.2.2 with h | h
              · rw [h]
                exact hnb
              · rw [h]
                exact hbPid
        · -- all local depths are 255: the mask computation is undefined
          have hl255 := h255 bIdx hbLt
          have hgne : ¬ (fetchDir s dpid).localDepths bIdx =
              (fetchDir s dpid).globalDepth := by
            rw [hl255]
            omega
          rw [if_neg hgne] at hstep
          rw [show getLocalDepthMaskE (fetchDir s dpid) bIdx =
              Except.error "undefined 32-bit shift in GetLocalDepthMask" by
            rw [getLocalDepthMaskE, if_neg (by rw [hl255]; omega)]] at hstep
          simp at hstep

theorem dirInv_dirInit (m : Nat) : DirInv (dirInit m) :=
  dirInv_trivial rfl rfl (Nat.min_le_right m htableDirectoryMaxDepth)

theorem dirInv_shrinkIf {d3 : DirPage} (h : DirInv d3) :
    DirInv (if canShrink d3 = true then decrGlobalDepth d3 else d3) := by
  by_cases hc : canShrink d3 = true
  · rw [if_pos hc]
    exact decr_dirInv h hc
  · rw [if_neg hc]
    exact h

theorem hashToBucketIndex_lt (d : DirPage) (h : Nat) :
    hashToBucketIndex d h < dirSize d := by
  rw [hashToBucketIndex]
  exact Nat.mod_lt _ (by rw [dirSize]; exact pow_pos (by omega) _)

/-- `InsertToNewBucket` preserves the table invariant. -/
theorem insertToNewBucket_htInv (cfg : HTConfig) :
    ∀ (fuel : Nat) (s : HTState) (dpid : Int) (h k v : Nat) (r : Bool)
      (s' : HTState), HTInv s →
      insertToNewBucket cfg fuel s dpid h k v = Except.ok (r, s') →
      HTInv s' := by
  intro fuel
  induction fuel with
  | zero =>
    intro s dpid h k v r s' _ hstep
    simp [insertToNewBucket] at hstep
  | succ f ih =>
    intro s dpid h k v r s' hInv hstep
    simp only [insertToNewBucket, allocPage] at hstep
    by_cases hc : (fetchDir s dpid).bucketPageIds
        (hashToBucketIndex (fetchDir s dpid) h) = -1
    · -- the bucket page is created first; by the invariant the directory
      -- still has global depth 0, so the new directory is trivially fine
      rw [if_pos hc] at hstep
      dsimp only at hstep
      have hbLt := hashToBucketIndex_lt (fetchDir s dpid) h
      have hg0 : (fetchDir s dpid).globalDepth = 0 :=
        (hInv.2 dpid).2.1 _ hbLt hc
      have hb0 : hashToBucketIndex (fetchDir s dpid) h = 0 := by
        rw [hashToBucketIndex, dirSize, hg0, pow_zero, Nat.mod_one]
      have hInv1 : HTInv (updDir
          (updBucket { s with nextPageId := s.nextPageId + 1 } s.nextPageId
            (bucketInit cfg.bucketMaxSize)) dpid
          (setLocalDepth (setBucketPageId (fetchDir s dpid)
            (hashToBucketIndex (fetchDir s dpid) h) s.nextPageId)
            (hashToBucketIndex (fetchDir s dpid) h) 0)) := by
        refine ⟨by show (0 : Int) ≤ s.nextPageId + 1; have := hInv.1; omega,
          fun q => ?_⟩
        rw [fetchDir_updDir]
        by_cases hq : q = dpid
        · rw [if_pos hq]
          refine dirInv_trivial hg0 ?_ ?_
          · simp [setLocalDepth, setBucketPageId, hb0]
          · exact (hInv.2 dpid).2.2.2.2
        · rw [if_neg hq]
          exact hInv.2 q
      split at hstep
      · exact Except.noConfusion hstep
      · rename_i s2 heq
        simp only [Except.ok.injEq, Prod.mk.injEq] at hstep
        obtain ⟨_, h2⟩ := hstep
        subst h2
        exact splitLoop_htInv cfg f _ dpid _ _ false s2 hInv1
          (by rw [fetchDir_updDir, if_pos rfl]
              show hashToBucketIndex (fetchDir s dpid) h <
                dirSize (fetchDir s dpid)
              exact hbLt)
          (by rw [fetchDir_updDir, if_pos rfl]
              show (setLocalDepth (setBucketPageId (fetchDir s dpid) _
                s.nextPageId) _ 0).bucketPageIds _ ≠ -1
              simp [setLocalDepth, setBucketPageId]
              have := hInv.1
              omega) heq
      · rename_i s2 heq
        have hInv2 : HTInv s2 := splitLoop_htInv cfg f _ dpid _ _ true s2 hInv1
          (by rw [fetchDir_updDir, if_pos rfl]
              show hashToBucketIndex (fetchDir s dpid) h <
                dirSize (fetchDir s dpid)
              exact hbLt)
          (by rw [fetchDir_updDir, if_pos rfl]
              show (setLocalDepth (setBucketPageId (fetchDir s dpid) _
                s.nextPageId) _ 0).bucketPageIds _ ≠ -1
              simp [setLocalDepth, setBucketPageId]
              have := hInv.1
              omega) heq
        by_cases hfull : bucketIsFull (fetchBucket
            (updDir (updBucket { s with nextPageId := s.nextPageId + 1 }
              s.nextPageId (bucketInit cfg.bucketMaxSize)) dpid
              (setLocalDepth (setBucketPageId (fetchDir s dpid)
                (hashToBucketIndex (fetchDir s dpid) h) s.nextPageId)
                (hashToBucketIndex (fetchDir s dpid) h) 0))
            s.nextPageId) = true
        · rw [if_pos hfull] at hstep
          exact ih s2 dpid h k v r s' hInv2 hstep
        · rw [if_neg hfull] at hstep
          simp only [Except.ok.injEq, Prod.mk.injEq] at hstep
          obtain ⟨_, h2⟩ := hstep
          subst h2
          exact ⟨hInv2.1, fun q => hInv2.2 q⟩
    · rw [if_neg hc] at hstep
      dsimp only at hstep
      have hbLt := hashToBucketIndex_lt (fetchDir s dpid) h
      split at hstep
      · exact Except.noConfusion hstep
      · rename_i s2 heq
        simp only [Except.ok.injEq, Prod.mk.injEq] at hstep
        obtain ⟨_, h2⟩ := hstep
        subst h2
        exact splitLoop_htInv cfg f s dpid _ _ false s2 hInv hbLt hc heq
      · rename_i s2 heq
        have hInv2 : HTInv s2 :=
          splitLoop_htInv cfg f s dpid _ _ true s2 hInv hbLt hc heq
        by_cases hfull : bucketIsFull (fetchBucket s
            ((fetchDir s dpid).bucketPageIds
              (hashToBucketIndex (fetchDir s dpid) h))) = true
        · rw [if_pos hfull] at hstep
          exact ih s2 dpid h k v r s' hInv2 hstep
        · rw [if_neg hfull] at hstep
          simp only [Except.ok.injEq, Prod.mk.injEq] at hstep
          obtain ⟨_, h2⟩ := hstep
          subst h2
          exact ⟨hInv2.1, fun q => hInv2.2 q⟩

/-- `Insert` preserves the table invariant. -/
theorem insertOp_htInv (cfg : HTConfig) (fuel : Nat) (s : HTState)
    (k v : Nat) (r : Bool) (s' : HTState) (hInv : HTInv s)
    (hstep : insertOp cfg fuel s k v = Except.ok (r, s')) : HTInv s' := by
  simp only [insertOp, allocPage] at hstep
  by_cases hc : s.header.directoryPageIds
      (hashToDirectoryIndex s.header (cfg.hash k)) = -1
  · rw [if_pos hc] at hstep
    dsimp only at hstep
    refine insertToNewBucket_htInv cfg fuel _ _ _ _ _ r s' ⟨?_, fun q => ?_⟩
      hstep
    · show (0 : Int) ≤ s.nextPageId + 1
      have := hInv.1
      omega
    · show DirInv (fetchDir (updDir { s with nextPageId := s.nextPageId + 1 }
        s.nextPageId (dirInit cfg.directoryMaxDepth)) q)
      rw [fetchDir_updDir]
      by_cases hq : q = s.nextPageId
      · rw [if_pos hq]
        exact dirInv_dirInit _
      · rw [if_neg hq]
        exact hInv.2 q
  · rw [if_neg hc] at hstep
    dsimp only at hstep
    exact insertToNewBucket_htInv cfg fuel _ _ _ _ _ r s' hInv hstep

/-- `Remove` preserves the table invariant. -/
theorem removeOp_htInv (cfg : HTConfig) (s : HTState) (k : Nat) (r : Bool)
    (s' : HTState) (hInv : HTInv s)
    (hstep : removeOp cfg s k = Except.ok (r, s')) : HTInv s' := by
  simp only [removeOp] at hstep
  by_cases hc1 : s.header.directoryPageIds
      (hashToDirectoryIndex s.header (cfg.hash k)) = -1
  · rw [if_pos hc1] at hstep
    simp only [Except.ok.injEq, Prod.mk.injEq] at hstep
    obtain ⟨_, h2⟩ := hstep
    subst h2
    exact hInv
  · rw [if_neg hc1] at hstep
    by_cases hc2 : (fetchDir s (s.header.directoryPageIds
        (hashToDirectoryIndex s.header (cfg.hash k)))).bucketPageIds
        (hashToBucketIndex (fetchDir s (s.header.directoryPageIds
          (hashToDirectoryIndex s.header (cfg.hash k)))) (cfg.hash k)) = -1
    · rw [if_pos hc2] at hstep
      simp only [Except.ok.injEq, Prod.mk.injEq] at hstep
      obtain ⟨_, h2⟩ := hstep
      subst h2
      exact hInv
    · rw [if_neg hc2] at hstep
      by_cases hc3 : (bucketRemove (fetchBucket s
            ((fetchDir s (s.header.directoryPageIds
              (hashToDirectoryIndex s.header (cfg.hash k)))).bucketPageIds
              (hashToBucketIndex (fetchDir s (s.header.directoryPageIds
                (hashToDirectoryIndex s.header (cfg.hash k))))
                (cfg.hash k)))) k).1 = true ∧
          bucketIsEmpty (bucketRemove (fetchBucket s
            ((fetchDir s (s.header.directoryPageIds
              (hashToDirectoryIndex s.header (cfg.hash k)))).bucketPageIds
              (hashToBucketIndex (fetchDir s (s.header.directoryPageIds
                (hashToDirectoryIndex s.header (cfg.hash k))))
                (cfg.hash k)))) k).2 = true
      · rw [if_pos hc3] at hstep
        by_cases hc4 : getSplitImageIndex (fetchDir s
              (s.header.directoryPageIds (hashToDirectoryIndex s.header
                (cfg.hash k))))
            (hashToBucketIndex (fetchDir s (s.header.directoryPageIds
              (hashToDirectoryIndex s.header (cfg.hash k))))
              (cfg.hash k)) =
            hashToBucketIndex (fetchDir s (s.header.directoryPageIds
              (hashToDirectoryIndex s.header (cfg.hash k)))) (cfg.hash k)
        · rw [if_pos hc4] at hstep
          simp only [Except.ok.injEq, Prod.mk.injEq] at hstep
          obtain ⟨_, h2⟩ := hstep
          subst h2
          exact ⟨hInv.1, fun q => hInv.2 q⟩
        · rw [if_neg hc4] at hstep
          have hbLt := hashToBucketIndex_lt (fetchDir s
            (s.header.directoryPageIds (hashToDirectoryIndex s.header
              (cfg.hash k)))) (cfg.hash k)
          have hg : 1 ≤ (fetchDir s (s.header.directoryPageIds
              (hashToDirectoryIndex s.header (cfg.hash k)))).globalDepth := by
            by_contra hgz
            apply hc4
            rw [getSplitImageIndex, if_pos]
            rw [dirSize, show (fetchDir s (s.header.directoryPageIds
              (hashToDirectoryIndex s.header
                (cfg.hash k)))).globalDepth = 0 by omega, pow_zero]
          obtain ⟨hClass, hInvd, hDep, hgm, hm9⟩ := hInv.2
            (s.header.directoryPageIds
              (hashToDirectoryIndex s.header (cfg.hash k)))
          rcases hDep with hBr | ⟨_, h255⟩
          · have hl9 : (fetchDir s (s.header.directoryPageIds
                (hashToDirectoryIndex s.header
                  (cfg.hash k)))).localDepths
                (hashToBucketIndex (fetchDir s (s.header.directoryPageIds
                  (hashToDirectoryIndex s.header (cfg.hash k))))
                  (cfg.hash k)) ≤ 9 := by
              have h1 := hBr _ hbLt
              have h2 := hm9
              rw [htableDirectoryMaxDepth] at h2
              omega
            rw [show getLocalDepthMaskE (fetchDir s
                (s.header.directoryPageIds (hashToDirectoryIndex s.header
                  (cfg.hash k))))
                (hashToBucketIndex (fetchDir s (s.header.directoryPageIds
                  (hashToDirectoryIndex s.header (cfg.hash k))))
                  (cfg.hash k)) =
                Except.ok (2 ^ (fetchDir s (s.header.directoryPageIds
                  (hashToDirectoryIndex s.header
                    (cfg.hash k)))).localDepths
                  (hashToBucketIndex (fetchDir s (s.header.directoryPageIds
                    (hashToDirectoryIndex s.header (cfg.hash k))))
                    (cfg.hash k)) - 1) by
              rw [getLocalDepthMaskE, if_pos (by omega)]] at hstep
            dsimp only at hstep
            simp only [Except.ok.injEq, Prod.mk.injEq] at hstep
            obtain ⟨_, h2⟩ := hstep
            subst h2
            have hmerge := mergeDirUpdate_dirInv
              ⟨hClass, hInvd, Or.inl hBr, hgm, hm9⟩ hBr hbLt hg
            refine ⟨hInv.1, fun q => ?_⟩
            rw [fetchDir_updDir]
            by_cases hq : q = s.header.directoryPageIds
                (hashToDirectoryIndex s.header (cfg.hash k))
            · rw [if_pos hq]
              exact dirInv_shrinkIf hmerge
            · rw [if_neg hq]
              exact hInv.2 q
          · have hl255 := h255 _ hbLt
            rw [show getLocalDepthMaskE (fetchDir s
                (s.header.directoryPageIds (hashToDirectoryIndex s.header
                  (cfg.hash k))))
                (hashToBucketIndex (fetchDir s (s.header.directoryPageIds
                  (hashToDirectoryIndex s.header (cfg.hash k))))
                  (cfg.hash k)) =
                Except.error "undefined 32-bit shift in GetLocalDepthMask" by
              rw [getLocalDepthMaskE, if_neg (by rw [hl255]; omega)]] at hstep
            simp at hstep
      · rw [if_neg hc3] at hstep
        simp only [Except.ok.injEq, Prod.mk.injEq] at hstep
        obtain ⟨_, h2⟩ := hstep
        subst h2
        exact ⟨hInv.1, fun q => hInv.2 q⟩

/-- A completed run of user operations preserves the table invariant. -/
theorem runOps_htInv (cfg : HTConfig) (fuel : Nat) :
    ∀ (ops : List HTOp) (s s' : HTState), HTInv s →
      runOps cfg fuel s ops = some s' → HTInv s' := by
  intro ops
  induction ops with
  | nil =>
    intro s s' hInv hrun
    simp only [runOps, Option.some.injEq] at hrun
    rw [← hrun]
    exact hInv
  | cons op rest ihr =>
    intro s s' hInv hrun
    simp only [runOps] at hrun
    cases op with
    | insert k v =>
      dsimp only at hrun
      split at hrun
      · exact Option.noConfusion hrun
      · rename_i b1 s1 heq
        exact ihr s1 s' (insertOp_htInv cfg fuel s k v b1 s1 hInv heq) hrun
    | remove k =>
      dsimp only at hrun
      split at hrun
      · exact Option.noConfusion hrun
      · rename_i b1 s1 heq
        exact ihr s1 s' (removeOp_htInv cfg s k b1 s1 hInv heq) hrun

/-- Claim C3: after any completed sequence of Insert and Remove operations
from a fresh table, every directory page satisfies the congruence invariant:
directory indices i and j below the directory's size that are congruent
modulo `2^local_depth[i]` hold the same bucket page id and the same local
depth.  The invariant survives bucket creation, bucket splits, directory
doubling, merges (including the local-depth-0 underflow that stores 255
everywhere) and directory shrinking. -/
theorem ht_directory_congruence_invariant (cfg : HTConfig) (fuel hmd : Nat)
    (ops : List HTOp) (s : HTState)
    (hrun : runOps cfg fuel (mkHashTable hmd) ops = some s) :
    ∀ (dpid : Int) (d : DirPage), s.dirs dpid = some d →
      ∀ i, i < 2 ^ d.globalDepth → ∀ j, j < 2 ^ d.globalDepth →
        i % 2 ^ d.localDepths i = j % 2 ^ d.localDepths i →
        d.bucketPageIds i = d.bucketPageIds j ∧
          d.localDepths i = d.localDepths j := by
  intro dpid d hd i hi j hj hmod
  have hInv := runOps_htInv cfg fuel ops _ s (htInv_mk hmd) hrun
  have hfd : fetchDir s dpid = d := by
    rw [fetchDir, hd]
    rfl
  have hC := (hInv.2 dpid).1
  rw [hfd] at hC
  exact hC i (by rw [dirSize]; exact hi) j (by rw [dirSize]; exact hj) hmod

/-- Witness for claim C3: in the concrete table after three inserts, the
directory page at page id 1 has global depth 2, and slots 1 and 3 are
congruent modulo the local depth of slot 1, so they share a bucket page id
and a local depth. -/
theorem ht_directory_congruence_invariant_witness :
    htDemoState.dirs 1 = some (fetchDir htDemoState 1) ∧
    (1 : Nat) < 2 ^ (fetchDir htDemoState 1).globalDepth ∧
    (3 : Nat) < 2 ^ (fetchDir htDemoState 1).globalDepth ∧
    1 % 2 ^ (fetchDir htDemoState 1).localDepths 1 =
      3 % 2 ^ (fetchDir htDemoState 1).localDepths 1 ∧
    ((fetchDir htDemoState 1).bucketPageIds 1 =
      (fetchDir htDemoState 1).bucketPageIds 3 ∧
      (fetchDir htDemoState 1).localDepths 1 =
        (fetchDir htDemoState 1).localDepths 3) := by
  refine ⟨rfl, by decide, by decide, by decide, ?_⟩
  exact ht_directory_congruence_invariant idHashConfig 30 0
    [HTOp.insert 0 7, HTOp.insert 2 8, HTOp.insert 1 9] htDemoState rfl 1
    (fetchDir htDemoState 1) rfl 1 (by decide) 3 (by decide) (by decide)

end Bustub
